import Mathlib

/-!
# DoctorsOffice.c: the waiting-room queue, the shared counters and the start-up checks

A shallow embedding of `DoctorsOffice.c`.

* Pointers to patient records are `Option Nat` (`none` is `NULL`); the heap maps every
  address to the record stored there.
* `size_t` fields are natural numbers; `++` and `--` wrap modulo `2 ^ 64`.
* A function whose C body can dereference `NULL` returns an `Option`; `none` is that fault.
-/

namespace DoctorsOffice

/-! ## Data model -/

/-- Number of values of a `size_t` (64 bit). -/
def SIZE_MOD : Nat := 2 ^ 64

/-- Largest `int` (32 bit). -/
def INT_MAX : Int := 2147483647

/-- Smallest `int` (32 bit). -/
def INT_MIN : Int := -2147483648

/-- Pointer to a patient record; `none` is `NULL`. -/
abbrev Ptr := Option Nat

/-- The fields of `struct patient` that the queue and the counters depend on
(the per-record mutex and condition variable carry no data). -/
structure patient_t where
  pat_id : Int
  doc_id : Int
  treated : Bool
  next : Ptr
deriving DecidableEq, Repr

/-- Function `create_patient_record` (lines 38-50): a new record with `doc_id = -1`, not
treated, `next = NULL`. -/
def create_patient_record (pat_id : Int) : patient_t :=
  { pat_id := pat_id, doc_id := -1, treated := false, next := none }

/-- The data fields of `struct wait_room`. -/
structure wait_room_t where
  wait_room_head : Ptr
  wait_room_tail : Ptr
  wait_room_max_capacity : Nat
  wait_room_curr_size : Nat
deriving DecidableEq, Repr

/-- The patient records in memory, by address. -/
abbrev Heap := Nat → patient_t

/-- The memory the queue functions read and write: the records and `*do_wr`. -/
structure Mem where
  heap : Heap
  wr : wait_room_t

/-- Store `v` in the `next` field of the record at address `a`. -/
def set_next (h : Heap) (a : Nat) (v : Ptr) : Heap :=
  fun x => if x = a then { h a with next := v } else h x

/-- Store `v` in the `doc_id` field of the record at address `a`. -/
def set_doc_id (h : Heap) (a : Nat) (v : Int) : Heap :=
  fun x => if x = a then { h a with doc_id := v } else h x

/-- Store `v` in the `treated` field of the record at address `a`. -/
def set_treated (h : Heap) (a : Nat) (v : Bool) : Heap :=
  fun x => if x = a then { h a with treated := v } else h x

/-! ## The queue functions -/

/-- Function `wait_room_add_patient(wr, pat)` (lines 93-110). `none` is the `NULL` dereference of
`wr->wait_room_tail->next` when the head is set and the tail is not. -/
def wait_room_add_patient (s : Mem) (pat : Nat) : Option (Bool × Mem) :=
  if s.wr.wait_room_curr_size ≥ s.wr.wait_room_max_capacity then
    some (false, s)
  else
    match s.wr.wait_room_head with
    | none =>
      some (true,
        { heap := s.heap
          wr := { wait_room_head := some pat
                  wait_room_tail := some pat
                  wait_room_max_capacity := s.wr.wait_room_max_capacity
                  wait_room_curr_size := (s.wr.wait_room_curr_size + 1) % SIZE_MOD } })
    | some hd =>
      match s.wr.wait_room_tail with
      | none => none
      | some tl =>
        some (true,
          { heap := set_next s.heap tl (some pat)
            wr := { wait_room_head := some hd
                    wait_room_tail := some pat
                    wait_room_max_capacity := s.wr.wait_room_max_capacity
                    wait_room_curr_size := (s.wr.wait_room_curr_size + 1) % SIZE_MOD } })

/-- Function `wait_room_remove_patient(wr)` (lines 118-131); the decrement of the `size_t`
counter wraps. -/
def wait_room_remove_patient (s : Mem) : Ptr × Mem :=
  match s.wr.wait_room_head with
  | none => (none, s)
  | some pat =>
    let head := (s.heap pat).next
    (some pat,
      { heap := s.heap
        wr := { wait_room_head := head
                wait_room_tail := if head = none then none else s.wr.wait_room_tail
                wait_room_max_capacity := s.wr.wait_room_max_capacity
                wait_room_curr_size := (s.wr.wait_room_curr_size + SIZE_MOD - 1) % SIZE_MOD } })

/-- The wait room as `main` sets it up (lines 368-376): no head, no tail, size 0. -/
def init_wait_room (num_chairs : Nat) : wait_room_t :=
  { wait_room_head := none
    wait_room_tail := none
    wait_room_max_capacity := num_chairs
    wait_room_curr_size := 0 }

/-! ## The sequence a linked list stands for -/

/-- The chain of `next` pointers from `p` visits exactly the addresses `xs` and then
reaches `NULL`. -/
def lseg (h : Heap) : Ptr → List Nat → Prop
  | p, [] => p = none
  | p, a :: xs => p = some a ∧ lseg h (h a).next xs

instance lseg_decidable (h : Heap) : (p : Ptr) → (xs : List Nat) → Decidable (lseg h p xs)
  | p, [] => inferInstanceAs (Decidable (p = none))
  | p, a :: xs =>
    have := lseg_decidable h (h a).next xs
    inferInstanceAs (Decidable (p = some a ∧ lseg h (h a).next xs))

/-- The head and tail pointers of the memory stand for the sequence `xs`. -/
def Represents (s : Mem) (xs : List Nat) : Prop :=
  lseg s.heap s.wr.wait_room_head xs ∧ s.wr.wait_room_tail = xs.getLast?

/-- Well-formed wait room holding the sequence `xs`: the links stand for `xs`, the
counter is its length and stays within the capacity, which fits a `size_t`. -/
def WellFormed (s : Mem) (xs : List Nat) : Prop :=
  Represents s xs ∧ s.wr.wait_room_curr_size = xs.length ∧
    s.wr.wait_room_curr_size ≤ s.wr.wait_room_max_capacity ∧
    s.wr.wait_room_max_capacity < SIZE_MOD

/-- A record that has just been created for a patient who is not in the queue. -/
def Fresh (s : Mem) (xs : List Nat) (pat : Nat) : Prop :=
  (s.heap pat).next = none ∧ pat ∉ xs

instance Represents_decidable (s : Mem) (xs : List Nat) : Decidable (Represents s xs) :=
  inferInstanceAs (Decidable
    (lseg s.heap s.wr.wait_room_head xs ∧ s.wr.wait_room_tail = xs.getLast?))

instance WellFormed_decidable (s : Mem) (xs : List Nat) : Decidable (WellFormed s xs) :=
  inferInstanceAs (Decidable
    (Represents s xs ∧ s.wr.wait_room_curr_size = xs.length ∧
      s.wr.wait_room_curr_size ≤ s.wr.wait_room_max_capacity ∧
      s.wr.wait_room_max_capacity < SIZE_MOD))

instance Fresh_decidable (s : Mem) (xs : List Nat) (pat : Nat) : Decidable (Fresh s xs pat) :=
  inferInstanceAs (Decidable ((s.heap pat).next = none ∧ pat ∉ xs))

/-- The heap in which the record at every address `i` is `create_patient_record(i)`. -/
def fresh_heap : Heap := fun i => create_patient_record i

/-- Example memory: records 0 and 1 wait in this order, in a room of `num_chairs` chairs
whose counter reads 2. -/
def two_waiting (num_chairs : Nat) : Mem :=
  { heap := set_next fresh_heap 0 (some 1)
    wr := { wait_room_head := some 0
            wait_room_tail := some 1
            wait_room_max_capacity := num_chairs
            wait_room_curr_size := 2 } }

/-! ## Sequences of queue calls -/

/-- One call of a queue function. -/
inductive QueueCall where
  | add (pat : Nat)
  | remove
deriving DecidableEq, Repr

/-- The memory together with the history of a run of queue calls: the records for which
`wait_room_add_patient` returned `true`, and the records `wait_room_remove_patient`
returned, both in call order. -/
structure QueueRun where
  mem : Mem
  enqueued : List Nat
  dequeued : List Nat

/-- Perform one queue call; `none` is a `NULL` dereference inside the call. -/
def QueueRun.call (r : QueueRun) : QueueCall → Option QueueRun
  | .add pat =>
    match wait_room_add_patient r.mem pat with
    | none => none
    | some (true, m) => some { mem := m, enqueued := r.enqueued ++ [pat], dequeued := r.dequeued }
    | some (false, m) => some { mem := m, enqueued := r.enqueued, dequeued := r.dequeued }
  | .remove =>
    match wait_room_remove_patient r.mem with
    | (none, m) => some { mem := m, enqueued := r.enqueued, dequeued := r.dequeued }
    | (some pat, m) => some { mem := m, enqueued := r.enqueued, dequeued := r.dequeued ++ [pat] }

/-- Perform a list of queue calls in order. -/
def QueueRun.calls : QueueRun → List QueueCall → Option QueueRun
  | r, [] => some r
  | r, c :: cs =>
    match r.call c with
    | none => none
    | some r1 => r1.calls cs

/-- The records passed to `wait_room_add_patient` in a list of calls. -/
def added : List QueueCall → List Nat
  | [] => []
  | .add pat :: cs => pat :: added cs
  | .remove :: cs => added cs

/-- The empty wait room of `main` over the heap `h`, before any call. -/
def QueueRun.start (h : Heap) (num_chairs : Nat) : QueueRun :=
  { mem := { heap := h, wr := init_wait_room num_chairs }, enqueued := [], dequeued := [] }

/-! ## Shared counters and the two critical sections -/

/-- The `struct _stats` counters (`size_t`). -/
structure stats_t where
  p_entered : Nat
  p_treated : Nat
  p_not_treated : Nat
deriving DecidableEq, Repr

/-- Function `init_stats` (lines 144-148): all three counters are 0. -/
def init_stats : stats_t :=
  { p_entered := 0, p_treated := 0, p_not_treated := 0 }

/-- The arrival critical section of `patient_thread` (lines 267-292): `p_entered++`, then
either the record is queued (result `true`, the thread goes on to wait on `treatment`) or
`p_not_treated++` (result `false`, the thread exits). -/
def patient_thread_arrive (m : Mem) (st : stats_t) (my_rec : Nat) :
    Option (Bool × Mem × stats_t) :=
  let st1 : stats_t := { st with p_entered := (st.p_entered + 1) % SIZE_MOD }
  match wait_room_add_patient m my_rec with
  | none => none
  | some (true, m1) => some (true, m1, st1)
  | some (false, m1) =>
    some (false, m1, { st1 with p_not_treated := (st1.p_not_treated + 1) % SIZE_MOD })

/-- The claim critical section of `doctor_thread` once the loop `while (curr_size == 0)`
has been left (lines 240-242): dequeue, write the doctor's id into the record,
`p_treated++`. `none` is the `NULL` dereference `curr_pat->doc_id` on an empty list. -/
def doctor_thread_claim (m : Mem) (st : stats_t) (tid : Int) :
    Option (Nat × Mem × stats_t) :=
  match wait_room_remove_patient m with
  | (none, _) => none
  | (some curr_pat, m1) =>
    some (curr_pat, { heap := set_doc_id m1.heap curr_pat tid, wr := m1.wr },
      { st with p_treated := (st.p_treated + 1) % SIZE_MOD })

/-! ## The office as a transition system

One step is one lock-protected section of a thread, from taking a lock to releasing it
(by `pthread_mutex_unlock` or by blocking in `pthread_cond_wait`). -/

/-- Where a patient thread stands. -/
inductive PatientState where
  | NotArrived
  | AwaitingClaim
  | Signalled
  | AwaitingService
  | Rejected
  | Done
deriving DecidableEq, Repr

/-- Where a doctor thread stands. -/
inductive DoctorState where
  | Scanning
  | Treating (pat : Nat)
  | Exited
deriving DecidableEq, Repr

/-- Global state: memory, counters, the configured numbers and the thread states.
Patient `i` owns the record at address `i`; doctor `d` has thread id `d`. -/
structure Office where
  mem : Mem
  st : stats_t
  num_patients : Nat
  num_doctors : Nat
  pstate : Nat → PatientState
  dstate : Nat → DoctorState

/-- Change the state of one thread. -/
def set_state {α : Type} (f : Nat → α) (i : Nat) (v : α) : Nat → α :=
  fun x => if x = i then v else f x

/-- The steps of the threads. -/
inductive Event where
  | arrive (i : Nat)
  | claim (d : Nat) (woken : Option Nat)
  | proceed (i : Nat)
  | finish (d : Nat)
  | leave (i : Nat)
  | clock_out (d : Nat)
deriving DecidableEq, Repr

/-- What `pthread_cond_signal(do_wr->treatment)` may do: unblock one thread blocked on the
condition variable, whichever it is, or nothing when no thread is blocked on it. -/
def may_wake (o : Office) : Option Nat → Prop
  | some w => w < o.num_patients ∧ o.pstate w = .AwaitingClaim
  | none => ∀ i, i < o.num_patients → o.pstate i ≠ .AwaitingClaim

instance may_wake_decidable (o : Office) : (w : Option Nat) → Decidable (may_wake o w)
  | some w => inferInstanceAs (Decidable (w < o.num_patients ∧ o.pstate w = .AwaitingClaim))
  | none => inferInstanceAs (Decidable (∀ i, i < o.num_patients → o.pstate i ≠ .AwaitingClaim))

/-- One step of the office; `none` when the thread cannot take the step in this state, or
when the step dereferences `NULL`.

* `arrive i`: patient `i` runs lines 267-292, ending blocked in
  `pthread_cond_wait(treatment)` or leaving at once.
* `claim d woken`: doctor `d` sees `curr_size != 0` and runs lines 240-247; its
  `pthread_cond_signal(treatment)` unblocks `woken`.
* `proceed i`: patient `i`, unblocked, returns from `pthread_cond_wait` and runs
  lines 297-298 (no test of its own record).
* `finish d`: doctor `d` ends the treatment (lines 249-253), setting `treated`.
* `leave i`: patient `i` finds `treated` set and exits (lines 301-314).
* `clock_out d`: doctor `d` sees an empty room and `p_entered == num_patients`
  (lines 219-227). -/
def step (o : Office) : Event → Option Office
  | .arrive i =>
    if i < o.num_patients ∧ o.pstate i = .NotArrived then
      match patient_thread_arrive o.mem o.st i with
      | none => none
      | some (true, m, st) =>
        some { o with mem := m, st := st, pstate := set_state o.pstate i .AwaitingClaim }
      | some (false, m, st) =>
        some { o with mem := m, st := st, pstate := set_state o.pstate i .Rejected }
    else none
  | .claim d woken =>
    if d < o.num_doctors ∧ o.dstate d = .Scanning ∧ o.mem.wr.wait_room_curr_size ≠ 0 ∧
        may_wake o woken then
      match doctor_thread_claim o.mem o.st (d : Int) with
      | none => none
      | some (curr_pat, m, st) =>
        some { o with
          mem := m
          st := st
          dstate := set_state o.dstate d (.Treating curr_pat)
          pstate :=
            match woken with
            | some w => set_state o.pstate w .Signalled
            | none => o.pstate }
    else none
  | .proceed i =>
    if o.pstate i = .Signalled then
      some { o with pstate := set_state o.pstate i .AwaitingService }
    else none
  | .finish d =>
    match o.dstate d with
    | .Treating pat =>
      some { o with
        mem := { heap := set_treated o.mem.heap pat true, wr := o.mem.wr }
        dstate := set_state o.dstate d .Scanning }
    | _ => none
  | .leave i =>
    if o.pstate i = .AwaitingService ∧ (o.mem.heap i).treated = true then
      some { o with pstate := set_state o.pstate i .Done }
    else none
  | .clock_out d =>
    if d < o.num_doctors ∧ o.dstate d = .Scanning ∧ o.mem.wr.wait_room_curr_size = 0 ∧
        o.st.p_entered = o.num_patients then
      some { o with dstate := set_state o.dstate d .Exited }
    else none

/-- Run a schedule of steps. -/
def run : Office → List Event → Option Office
  | o, [] => some o
  | o, e :: es =>
    match step o e with
    | none => none
    | some o1 => run o1 es

/-- The state `main` builds before it starts the threads (lines 356-380); the record of
patient `i` is `create_patient_record(i)`. -/
def init_office (num_chairs num_patients num_doctors : Nat) : Office :=
  { mem := { heap := fresh_heap, wr := init_wait_room num_chairs }
    st := init_stats
    num_patients := num_patients
    num_doctors := num_doctors
    pstate := fun _ => .NotArrived
    dstate := fun _ => .Scanning }

/-- All patient threads and all doctor threads have exited. -/
def AllExited (o : Office) : Prop :=
  (∀ i, i < o.num_patients → o.pstate i = .Done ∨ o.pstate i = .Rejected) ∧
    (∀ d, d < o.num_doctors → o.dstate d = .Exited)

instance AllExited_decidable (o : Office) : Decidable (AllExited o) :=
  inferInstanceAs (Decidable
    ((∀ i, i < o.num_patients → o.pstate i = .Done ∨ o.pstate i = .Rejected) ∧
      (∀ d, d < o.num_doctors → o.dstate d = .Exited)))

/-! ## `gen_random` -/

/-- The value fits an `int`. -/
def in_int (x : Int) : Prop := INT_MIN ≤ x ∧ x ≤ INT_MAX

instance in_int_decidable (x : Int) : Decidable (in_int x) :=
  inferInstanceAs (Decidable (INT_MIN ≤ x ∧ x ≤ INT_MAX))

/-- Function `gen_random(a, b)` (lines 494-504), with `rand_val` the value `rand()` returns.
`lo` and `hi` are the variables `a` and `b` after the swap of lines 496-501; `%` on `int`
truncates (`Int.tmod`). `none` when an `int` operation overflows or the divisor is zero. -/
def gen_random (a b : Int) (rand_val : Int) : Option Int :=
  let lo := if a ≥ b then b else a
  let hi := if a ≥ b then a else b
  if in_int (hi - lo) ∧ in_int (hi - lo + 1) ∧ hi - lo + 1 ≠ 0 then
    let res := Int.tmod rand_val (hi - lo + 1) + lo
    if in_int res then some res else none
  else none

/-! ## Start-up checks of `main` -/

/-- How the start-up part of `main` ends: the process exits with a code, or the office
is set up with the three numbers and the threads are started. -/
inductive Startup where
  | exit (code : Int)
  | start (num_chairs num_patients num_doctors : Nat)
deriving DecidableEq, Repr

/-- Lines 333-358 of `main`: `argc` and the three `atoi` results. -/
def main_startup (argc : Int) (_num_chairs _num_patients _num_doctors : Int) : Startup :=
  if argc ≠ 4 then .exit 0
  else if _num_doctors ≤ 0 then .exit 1
  else if _num_chairs ≤ 0 then .exit 2
  else if _num_patients < 0 then .exit 3
  else .start _num_chairs.toNat _num_patients.toNat _num_doctors.toNat

/-- The status of a run that reaches the end of `main` (`return 0`, line 471). -/
def main_return : Int := 0

/-! ## Example schedules -/

/-- Scenario A (two chairs, five patients, one doctor), one complete schedule: patient 3
finds the room full; the doctor treats patients 0, 1, 2 and 4 and clocks out. -/
def scenario_A : List Event :=
  [.arrive 0, .claim 0 (some 0), .proceed 0, .arrive 1, .arrive 2, .arrive 3, .finish 0,
    .leave 0, .claim 0 (some 1), .proceed 1, .arrive 4, .finish 0, .leave 1,
    .claim 0 (some 2), .proceed 2, .finish 0, .leave 2, .claim 0 (some 4), .proceed 4,
    .finish 0, .leave 4, .clock_out 0]

/-- The state at the end of `scenario_A`. -/
def scenario_A_final : Office :=
  (run (init_office 2 5 1) scenario_A).getD (init_office 2 5 1)

/-- A schedule with one chair, three patients and three doctors that stops half way:
patient 0 is being treated, patient 1 waits, patient 2 has been turned away. -/
def scenario_B_part : List Event :=
  [.arrive 0, .claim 1 (some 0), .proceed 0, .arrive 1, .arrive 2]

/-- The state at the end of `scenario_B_part`. -/
def scenario_B_state : Office :=
  (run (init_office 1 3 3) scenario_B_part).getD (init_office 1 3 3)

/-- A schedule with two chairs, three patients and one doctor: while the doctor treats
patient 0, patients 1 and 2 queue up and block on `treatment`; the doctor then dequeues
record 1 and its `pthread_cond_signal` unblocks patient 2, who goes on. -/
def wrong_wake : List Event :=
  [.arrive 0, .claim 0 (some 0), .proceed 0, .arrive 1, .arrive 2, .finish 0,
    .claim 0 (some 2), .proceed 2]

/-- The state at the end of `wrong_wake`. -/
def wrong_wake_final : Office :=
  (run (init_office 2 3 1) wrong_wake).getD (init_office 2 3 1)

/-! ## Invariants -/

/-- Invariant of a run of queue calls: the wait room is well formed and holds the
sequence `xs`, which is what was enqueued and has not been dequeued yet. -/
def QueueInv (r : QueueRun) (xs : List Nat) : Prop :=
  WellFormed r.mem xs ∧ r.enqueued = r.dequeued ++ xs

/-- Invariant of the office: the wait room is well formed and holds `xs`; `arrived` lists
the patients that have run their arrival section. -/
structure OfficeInv (o : Office) (xs arrived : List Nat) : Prop where
  wf : WellFormed o.mem xs
  conserve : o.st.p_entered = o.st.p_treated + o.st.p_not_treated + xs.length
  entered_eq : o.st.p_entered = arrived.length
  nodup : arrived.Nodup
  mem_iff : ∀ i, i ∈ arrived ↔ o.pstate i ≠ .NotArrived
  lt : ∀ i ∈ arrived, i < o.num_patients
  fresh : ∀ i, o.pstate i = .NotArrived → Fresh o.mem xs i
  npat : o.num_patients < SIZE_MOD
  exited : ∀ d, o.dstate d = .Exited → o.st.p_entered = o.num_patients ∧ xs = []

/-- From `o` to `o1` no counter decreases and the configured numbers stay the same. -/
def CountersGrow (o o1 : Office) : Prop :=
  o.st.p_entered ≤ o1.st.p_entered ∧ o.st.p_treated ≤ o1.st.p_treated ∧
    o.st.p_not_treated ≤ o1.st.p_not_treated ∧
    o1.num_patients = o.num_patients ∧ o1.num_doctors = o.num_doctors ∧
    o1.mem.wr.wait_room_max_capacity = o.mem.wr.wait_room_max_capacity

/-! ## Lemmas on linked segments -/

theorem lseg_functional (h : Heap) : ∀ (xs ys : List Nat) (p : Ptr),
    lseg h p xs → lseg h p ys → xs = ys
  | [], [], _, _, _ => rfl
  | [], _ :: _, p, h1, h2 => by
    simp only [lseg] at h1 h2
    rw [h1] at h2
    exact absurd h2.1 (by simp)
  | _ :: _, [], p, h1, h2 => by
    simp only [lseg] at h1 h2
    rw [h2] at h1
    exact absurd h1.1 (by simp)
  | a :: xs, b :: ys, p, h1, h2 => by
    simp only [lseg] at h1 h2
    have hab : a = b := by
      have := h1.1.symm.trans h2.1
      exact Option.some.inj this
    subst hab
    rw [lseg_functional h xs ys _ h1.2 h2.2]

theorem lseg_congr_next (h1 h2 : Heap) (hnext : ∀ a, (h2 a).next = (h1 a).next) :
    ∀ (xs : List Nat) (p : Ptr), lseg h1 p xs ↔ lseg h2 p xs
  | [], _ => Iff.rfl
  | a :: xs, p => by
    simp only [lseg]
    rw [hnext a]
    exact and_congr_right (fun _ => lseg_congr_next h1 h2 hnext xs _)

theorem lseg_suffix (h : Heap) : ∀ (l1 : List Nat) (a : Nat) (l2 : List Nat) (p : Ptr),
    lseg h p (l1 ++ a :: l2) → lseg h (some a) (a :: l2)
  | [], a, l2, p, hp => by
    simp only [List.nil_append, lseg] at hp
    exact ⟨rfl, hp.2⟩
  | b :: l1, a, l2, p, hp => by
    simp only [List.cons_append, lseg] at hp
    exact lseg_suffix h l1 a l2 _ hp.2

theorem lseg_nodup (h : Heap) : ∀ (xs : List Nat) (p : Ptr), lseg h p xs → xs.Nodup
  | [], _, _ => List.nodup_nil
  | a :: xs, p, hp => by
    simp only [lseg] at hp
    have ih := lseg_nodup h xs _ hp.2
    refine List.nodup_cons.mpr ⟨?_, ih⟩
    intro hmem
    obtain ⟨l1, l2, hsplit⟩ := List.append_of_mem hmem
    have hsuf : lseg h (some a) (a :: l2) := by
      have h2 := hp.2
      rw [hsplit] at h2
      exact lseg_suffix h l1 a l2 _ h2
    simp only [lseg, true_and] at hsuf
    have heq := lseg_functional h _ _ _ hp.2 hsuf
    have hlen := congrArg List.length heq
    rw [hsplit] at hlen
    simp at hlen
    omega

theorem lseg_set_next_of_not_mem (h : Heap) (t : Nat) (v : Ptr) :
    ∀ (xs : List Nat) (p : Ptr), t ∉ xs → lseg h p xs → lseg (set_next h t v) p xs
  | [], _, _, hp => hp
  | a :: xs, p, ht, hp => by
    simp only [lseg] at hp ⊢
    have hat : a ≠ t := fun e => ht (by simp [e])
    have hts : t ∉ xs := fun e => ht (List.mem_cons_of_mem _ e)
    refine ⟨hp.1, ?_⟩
    have : (set_next h t v a).next = (h a).next := by simp [set_next, hat]
    rw [this]
    exact lseg_set_next_of_not_mem h t v xs _ hts hp.2

/-- Appending at the tail: redirecting the last node's `next` to a fresh node extends the
segment by that node. -/
theorem lseg_snoc (h : Heap) (pat : Nat) (hpat : (h pat).next = none) :
    ∀ (xs : List Nat) (p : Ptr) (t : Nat), lseg h p xs → xs.getLast? = some t → pat ∉ xs →
      lseg (set_next h t (some pat)) p (xs ++ [pat])
  | [], _, _, _, hl, _ => by simp at hl
  | [a], p, t, hp, hl, hn => by
    simp only [List.getLast?_singleton, Option.some.injEq] at hl
    subst hl
    simp only [lseg] at hp
    have hne : pat ≠ a := fun e => hn (by simp [e])
    simp only [List.singleton_append, lseg]
    refine ⟨hp.1, ?_, ?_⟩
    · simp [set_next]
    · simp [set_next, hne, hpat]
  | a :: b :: xs, p, t, hp, hl, hn => by
    have hnd := lseg_nodup h _ _ hp
    simp only [lseg] at hp
    have hl2 : (b :: xs).getLast? = some t := by
      rw [List.getLast?_cons_cons] at hl
      exact hl
    have hn2 : pat ∉ b :: xs := fun e => hn (List.mem_cons_of_mem _ e)
    have htmem : t ∈ b :: xs := List.mem_of_getLast?_eq_some hl2
    have hat : a ≠ t := by
      intro e
      subst e
      exact (List.nodup_cons.mp hnd).1 htmem
    have ih := lseg_snoc h pat hpat (b :: xs) (h a).next t
      (by simp only [lseg]; exact hp.2) hl2 hn2
    simp only [List.cons_append, lseg]
    refine ⟨hp.1, ?_⟩
    have : (set_next h t (some pat) a).next = (h a).next := by simp [set_next, hat]
    rw [this]
    simpa only [List.cons_append, lseg] using ih

/-! ## The two queue functions on a represented sequence -/

theorem add_full (s : Mem) (pat : Nat)
    (hfull : s.wr.wait_room_curr_size ≥ s.wr.wait_room_max_capacity) :
    wait_room_add_patient s pat = some (false, s) := by
  simp [wait_room_add_patient, hfull]

theorem add_room (s : Mem) (xs : List Nat) (pat : Nat)
    (hrep : Represents s xs) (hfresh : Fresh s xs pat)
    (hroom : s.wr.wait_room_curr_size < s.wr.wait_room_max_capacity)
    (hcap : s.wr.wait_room_max_capacity < SIZE_MOD) :
    ∃ s1, wait_room_add_patient s pat = some (true, s1) ∧
      Represents s1 (xs ++ [pat]) ∧
      s1.wr.wait_room_curr_size = s.wr.wait_room_curr_size + 1 ∧
      s1.wr.wait_room_max_capacity = s.wr.wait_room_max_capacity ∧
      (∀ a, a ∉ xs → s1.heap a = s.heap a) := by
  have hnf : ¬ s.wr.wait_room_curr_size ≥ s.wr.wait_room_max_capacity := by omega
  have hsz : (s.wr.wait_room_curr_size + 1) % SIZE_MOD = s.wr.wait_room_curr_size + 1 :=
    Nat.mod_eq_of_lt (by omega)
  obtain ⟨hseg, htail⟩ := hrep
  obtain ⟨hnext, hnotin⟩ := hfresh
  cases xs with
  | nil =>
    simp only [lseg] at hseg
    have hrun : wait_room_add_patient s pat = some (true,
        { heap := s.heap
          wr := { wait_room_head := some pat
                  wait_room_tail := some pat
                  wait_room_max_capacity := s.wr.wait_room_max_capacity
                  wait_room_curr_size := (s.wr.wait_room_curr_size + 1) % SIZE_MOD } }) := by
      simp only [wait_room_add_patient, hnf, if_false, hseg]
    refine ⟨_, hrun, ?_, ?_, ?_, ?_⟩
    · exact ⟨by simp [lseg, hnext], by simp⟩
    · exact hsz
    · rfl
    · intro a _; rfl
  | cons a t =>
    have hhead : s.wr.wait_room_head = some a := by
      simp only [lseg] at hseg
      exact hseg.1
    obtain ⟨tl, htl⟩ : ∃ tl, (a :: t).getLast? = some tl := by
      cases hl : (a :: t).getLast? with
      | none => simp at hl
      | some tl => exact ⟨tl, rfl⟩
    rw [htl] at htail
    have hrun : wait_room_add_patient s pat = some (true,
        { heap := set_next s.heap tl (some pat)
          wr := { wait_room_head := some a
                  wait_room_tail := some pat
                  wait_room_max_capacity := s.wr.wait_room_max_capacity
                  wait_room_curr_size := (s.wr.wait_room_curr_size + 1) % SIZE_MOD } }) := by
      simp only [wait_room_add_patient, hnf, if_false, hhead, htail]
    refine ⟨_, hrun, ?_, ?_, ?_, ?_⟩
    · refine ⟨?_, ?_⟩
      · have := lseg_snoc s.heap pat hnext (a :: t) _ tl hseg htl hnotin
        simpa [hhead] using this
      · show some pat = ((a :: t) ++ [pat]).getLast?
        rw [List.getLast?_append]
        simp
    · exact hsz
    · rfl
    · intro x hx
      have hne : x ≠ tl := by
        intro e
        subst e
        exact hx (List.mem_of_getLast?_eq_some htl)
      simp [set_next, hne]

theorem remove_nil (s : Mem) (hrep : Represents s []) :
    wait_room_remove_patient s = (none, s) := by
  have hhead : s.wr.wait_room_head = none := hrep.1
  simp [wait_room_remove_patient, hhead]

theorem remove_cons (s : Mem) (a : Nat) (t : List Nat) (hrep : Represents s (a :: t)) :
    ∃ s1, wait_room_remove_patient s = (some a, s1) ∧
      Represents s1 t ∧
      s1.heap = s.heap ∧
      s1.wr.wait_room_curr_size = (s.wr.wait_room_curr_size + SIZE_MOD - 1) % SIZE_MOD ∧
      s1.wr.wait_room_max_capacity = s.wr.wait_room_max_capacity := by
  obtain ⟨hseg, htail⟩ := hrep
  simp only [lseg] at hseg
  obtain ⟨hhead, hrest⟩ := hseg
  have hrun : wait_room_remove_patient s = (some a,
      { heap := s.heap
        wr := { wait_room_head := (s.heap a).next
                wait_room_tail := if (s.heap a).next = none then none else s.wr.wait_room_tail
                wait_room_max_capacity := s.wr.wait_room_max_capacity
                wait_room_curr_size :=
                  (s.wr.wait_room_curr_size + SIZE_MOD - 1) % SIZE_MOD } }) := by
    simp only [wait_room_remove_patient, hhead]
  refine ⟨_, hrun, ?_, ?_, ?_, ?_⟩
  · refine ⟨hrest, ?_⟩
    cases t with
    | nil =>
      simp only [lseg] at hrest
      simp [hrest]
    | cons b u =>
      simp only [lseg] at hrest
      simp only [hrest.1, htail]
      simp [List.getLast?_cons_cons]
  · rfl
  · rfl
  · rfl

theorem wellFormed_head_iff (s : Mem) (xs : List Nat) (hwf : WellFormed s xs) :
    (s.wr.wait_room_head = none ↔ xs = []) ∧ (s.wr.wait_room_curr_size = 0 ↔ xs = []) := by
  obtain ⟨⟨hseg, _⟩, hlen, _, _⟩ := hwf
  cases xs with
  | nil => simp_all [lseg]
  | cons a t =>
    simp only [lseg] at hseg
    simp_all

theorem wellFormed_remove_cons (s : Mem) (a : Nat) (t : List Nat)
    (hwf : WellFormed s (a :: t)) :
    ∃ s1, wait_room_remove_patient s = (some a, s1) ∧
      WellFormed s1 t ∧
      s1.heap = s.heap ∧
      s1.wr.wait_room_curr_size + 1 = s.wr.wait_room_curr_size ∧
      s1.wr.wait_room_max_capacity = s.wr.wait_room_max_capacity := by
  obtain ⟨hrep, hlen, hle, hcap⟩ := hwf
  obtain ⟨s1, hrm, hrep1, hheap, hsz, hc⟩ := remove_cons s a t hrep
  simp only [List.length_cons] at hlen
  have hsz1 : s1.wr.wait_room_curr_size = t.length := by
    rw [hsz, hlen]
    have : t.length + 1 + SIZE_MOD - 1 = t.length + SIZE_MOD := by omega
    rw [this, Nat.add_mod_right]
    exact Nat.mod_eq_of_lt (by omega)
  refine ⟨s1, hrm, ⟨hrep1, hsz1, ?_, ?_⟩, hheap, ?_, hc⟩
  · rw [hc]; omega
  · rw [hc]; exact hcap
  · omega

theorem wellFormed_add (s : Mem) (xs : List Nat) (pat : Nat)
    (hwf : WellFormed s xs) (hfresh : Fresh s xs pat)
    (hroom : s.wr.wait_room_curr_size < s.wr.wait_room_max_capacity) :
    ∃ s1, wait_room_add_patient s pat = some (true, s1) ∧
      WellFormed s1 (xs ++ [pat]) ∧
      s1.wr.wait_room_max_capacity = s.wr.wait_room_max_capacity ∧
      (∀ a, a ∉ xs → s1.heap a = s.heap a) := by
  obtain ⟨hrep, hlen, hle, hcap⟩ := hwf
  obtain ⟨s1, hadd, hrep1, hsz, hc, hframe⟩ := add_room s xs pat hrep hfresh hroom hcap
  refine ⟨s1, hadd, ⟨hrep1, ?_, ?_, ?_⟩, hc, hframe⟩
  · rw [hsz, hlen]; simp
  · rw [hsz, hc]; omega
  · rw [hc]; exact hcap

/-! ## Runs of queue calls -/

theorem calls_append (cs1 cs2 : List QueueCall) :
    ∀ (r r1 : QueueRun), r.calls cs1 = some r1 → r.calls (cs1 ++ cs2) = r1.calls cs2 := by
  induction cs1 with
  | nil =>
    intro r r1 h
    simp only [QueueRun.calls, Option.some.injEq] at h
    simp [h]
  | cons c cs ih =>
    intro r r1 h
    simp only [QueueRun.calls, List.cons_append] at h ⊢
    cases hc : r.call c with
    | none => simp [hc] at h
    | some r2 =>
      simp only [hc] at h ⊢
      exact ih r2 r1 h

theorem start_inv (h : Heap) (num_chairs : Nat) (hcap : num_chairs < SIZE_MOD) :
    QueueInv (QueueRun.start h num_chairs) [] := by
  refine ⟨⟨⟨?_, ?_⟩, ?_, ?_, ?_⟩, ?_⟩
  · simp [lseg, QueueRun.start, init_wait_room]
  · simp [QueueRun.start, init_wait_room]
  · simp [QueueRun.start, init_wait_room]
  · simp [QueueRun.start, init_wait_room]
  · simpa [QueueRun.start, init_wait_room] using hcap
  · simp [QueueRun.start]

/-- A call of `wait_room_add_patient` on a fresh record keeps the invariant; it succeeds
exactly when there is room. -/
theorem call_add_inv (r : QueueRun) (xs : List Nat) (pat : Nat)
    (hinv : QueueInv r xs) (hfresh : Fresh r.mem xs pat) :
    ∃ r1, r.call (.add pat) = some r1 ∧
      r1.mem.wr.wait_room_max_capacity = r.mem.wr.wait_room_max_capacity ∧
      r1.dequeued = r.dequeued ∧
      ((r.mem.wr.wait_room_curr_size < r.mem.wr.wait_room_max_capacity ∧
          QueueInv r1 (xs ++ [pat]) ∧ r1.enqueued = r.enqueued ++ [pat] ∧
          (∀ a, a ∉ xs → r1.mem.heap a = r.mem.heap a)) ∨
        (r.mem.wr.wait_room_curr_size = r.mem.wr.wait_room_max_capacity ∧
          QueueInv r1 xs ∧ r1.enqueued = r.enqueued ∧ r1.mem = r.mem)) := by
  obtain ⟨hwf, henq⟩ := hinv
  by_cases hroom : r.mem.wr.wait_room_curr_size < r.mem.wr.wait_room_max_capacity
  · obtain ⟨s1, hadd, hwf1, hc, hframe⟩ := wellFormed_add r.mem xs pat hwf hfresh hroom
    refine ⟨{ mem := s1, enqueued := r.enqueued ++ [pat], dequeued := r.dequeued }, ?_, hc,
      rfl, Or.inl ⟨hroom, ⟨hwf1, ?_⟩, rfl, hframe⟩⟩
    · simp [QueueRun.call, hadd]
    · simp [henq]
  · have hfull : r.mem.wr.wait_room_curr_size ≥ r.mem.wr.wait_room_max_capacity := by omega
    have hadd := add_full r.mem pat hfull
    have hle := hwf.2.2.1
    refine ⟨{ mem := r.mem, enqueued := r.enqueued, dequeued := r.dequeued }, ?_, rfl, rfl,
      Or.inr ⟨by omega, ⟨hwf, henq⟩, rfl, rfl⟩⟩
    simp [QueueRun.call, hadd]

/-- A call of `wait_room_remove_patient` keeps the invariant and hands out the first
record of the sequence, if there is one. -/
theorem call_remove_inv (r : QueueRun) (xs : List Nat) (hinv : QueueInv r xs) :
    ∃ r1, r.call .remove = some r1 ∧
      r1.mem.wr.wait_room_max_capacity = r.mem.wr.wait_room_max_capacity ∧
      r1.mem.heap = r.mem.heap ∧
      r1.enqueued = r.enqueued ∧
      QueueInv r1 xs.tail ∧
      r1.dequeued = r.dequeued ++ xs.take 1 := by
  obtain ⟨hwf, henq⟩ := hinv
  cases xs with
  | nil =>
    have hrm := remove_nil r.mem hwf.1
    refine ⟨{ mem := r.mem, enqueued := r.enqueued, dequeued := r.dequeued }, ?_, rfl, rfl,
      rfl, ⟨hwf, henq⟩, by simp⟩
    simp [QueueRun.call, hrm]
  | cons a t =>
    obtain ⟨s1, hrm, hwf1, hheap, _, hc⟩ := wellFormed_remove_cons r.mem a t hwf
    refine ⟨{ mem := s1, enqueued := r.enqueued, dequeued := r.dequeued ++ [a] }, ?_, hc,
      hheap, rfl, ⟨hwf1, ?_⟩, by simp⟩
    · simp [QueueRun.call, hrm]
    · simp [henq]

/-- Every run of queue calls on distinct fresh records goes through without a fault and
keeps the invariant. -/
theorem calls_inv (cs : List QueueCall) :
    ∀ (r : QueueRun) (xs : List Nat), QueueInv r xs →
      (∀ p ∈ added cs, Fresh r.mem xs p) → (added cs).Nodup →
      ∃ r1 xs1, r.calls cs = some r1 ∧ QueueInv r1 xs1 ∧
        r1.mem.wr.wait_room_max_capacity = r.mem.wr.wait_room_max_capacity := by
  induction cs with
  | nil =>
    intro r xs hinv _ _
    exact ⟨r, xs, rfl, hinv, rfl⟩
  | cons c cs ih =>
    intro r xs hinv hfresh hnd
    cases c with
    | add pat =>
      simp only [added, List.nodup_cons] at hnd
      have hfp : Fresh r.mem xs pat := hfresh pat (by simp [added])
      obtain ⟨r1, hcall, hc, _, hcase⟩ := call_add_inv r xs pat hinv hfp
      rcases hcase with ⟨_, hinv1, _, hframe⟩ | ⟨_, hinv1, _, hmem⟩
      · have hfresh1 : ∀ p ∈ added cs, Fresh r1.mem (xs ++ [pat]) p := by
          intro p hp
          have hpf := hfresh p (by simp [added, hp])
          have hne : p ≠ pat := fun e => hnd.1 (e ▸ hp)
          refine ⟨?_, ?_⟩
          · rw [hframe p hpf.2]; exact hpf.1
          · simp [hpf.2, hne]
        obtain ⟨r2, xs2, hrun, hinv2, hc2⟩ := ih r1 _ hinv1 hfresh1 hnd.2
        exact ⟨r2, xs2, by simp [QueueRun.calls, hcall, hrun], hinv2, hc2.trans hc⟩
      · have hfresh1 : ∀ p ∈ added cs, Fresh r1.mem xs p := by
          intro p hp
          have hpf := hfresh p (by simp [added, hp])
          rw [Fresh, hmem]
          exact hpf
        obtain ⟨r2, xs2, hrun, hinv2, hc2⟩ := ih r1 _ hinv1 hfresh1 hnd.2
        exact ⟨r2, xs2, by simp [QueueRun.calls, hcall, hrun], hinv2, hc2.trans hc⟩
    | remove =>
      simp only [added] at hnd hfresh
      obtain ⟨r1, hcall, hc, hheap, _, hinv1, _⟩ := call_remove_inv r xs hinv
      have hfresh1 : ∀ p ∈ added cs, Fresh r1.mem xs.tail p := by
        intro p hp
        have hpf := hfresh p hp
        refine ⟨?_, ?_⟩
        · rw [hheap]; exact hpf.1
        · exact fun hmem => hpf.2 (List.mem_of_mem_tail hmem)
      obtain ⟨r2, xs2, hrun, hinv2, hc2⟩ := ih r1 _ hinv1 hfresh1 hnd
      exact ⟨r2, xs2, by simp [QueueRun.calls, hcall, hrun], hinv2, hc2.trans hc⟩

/-- From the empty wait room of `main`, every run of queue calls on distinct fresh records
goes through and ends in a state satisfying the invariant. -/
theorem start_calls_inv (h : Heap) (num_chairs : Nat) (cs : List QueueCall)
    (hcap : num_chairs < SIZE_MOD) (hfresh : ∀ p ∈ added cs, (h p).next = none)
    (hdistinct : (added cs).Nodup) :
    ∃ r xs, (QueueRun.start h num_chairs).calls cs = some r ∧ QueueInv r xs ∧
      r.mem.wr.wait_room_max_capacity = num_chairs := by
  obtain ⟨r, xs, hrun, hinv, hc⟩ := calls_inv cs (QueueRun.start h num_chairs) []
    (start_inv h num_chairs hcap)
    (fun p hp => ⟨by simpa [QueueRun.start] using hfresh p hp, by simp⟩) hdistinct
  exact ⟨r, xs, hrun, hinv, by simpa [QueueRun.start, init_wait_room] using hc⟩

theorem adds_all (rs : List Nat) :
    ∀ (r : QueueRun) (xs : List Nat), QueueInv r xs → (∀ p ∈ rs, Fresh r.mem xs p) →
      rs.Nodup → xs.length + rs.length ≤ r.mem.wr.wait_room_max_capacity →
      ∃ r1, r.calls (rs.map QueueCall.add) = some r1 ∧ QueueInv r1 (xs ++ rs) ∧
        r1.enqueued = r.enqueued ++ rs ∧ r1.dequeued = r.dequeued := by
  induction rs with
  | nil =>
    intro r xs hinv _ _ _
    exact ⟨r, rfl, by simpa using hinv, by simp, rfl⟩
  | cons p rs ih =>
    intro r xs hinv hfresh hnd hlen
    simp only [List.nodup_cons] at hnd
    simp only [List.length_cons] at hlen
    have hsz : r.mem.wr.wait_room_curr_size = xs.length := hinv.1.2.1
    obtain ⟨r1, hcall, hc, hdeq, hcase⟩ :=
      call_add_inv r xs p hinv (hfresh p (by simp))
    rcases hcase with ⟨_, hinv1, henq1, hframe⟩ | ⟨hfull, _⟩
    · have hfresh1 : ∀ q ∈ rs, Fresh r1.mem (xs ++ [p]) q := by
        intro q hq
        have hqf := hfresh q (by simp [hq])
        have hne : q ≠ p := fun e => hnd.1 (e ▸ hq)
        refine ⟨?_, ?_⟩
        · rw [hframe q hqf.2]; exact hqf.1
        · simp [hqf.2, hne]
      obtain ⟨r2, hrun, hinv2, henq2, hdeq2⟩ := ih r1 (xs ++ [p]) hinv1 hfresh1 hnd.2
        (by rw [hc]; simp; omega)
      refine ⟨r2, ?_, ?_, ?_, ?_⟩
      · simp [QueueRun.calls, hcall, hrun]
      · simpa using hinv2
      · rw [henq2, henq1]; simp
      · rw [hdeq2, hdeq]
    · omega

theorem removes_all (xs : List Nat) :
    ∀ (r : QueueRun), QueueInv r xs →
      ∃ r1, r.calls (List.replicate xs.length QueueCall.remove) = some r1 ∧
        QueueInv r1 [] ∧ r1.dequeued = r.dequeued ++ xs ∧ r1.enqueued = r.enqueued := by
  induction xs with
  | nil =>
    intro r hinv
    exact ⟨r, rfl, hinv, by simp, rfl⟩
  | cons a t ih =>
    intro r hinv
    obtain ⟨r1, hcall, _, _, henq1, hinv1, hdeq1⟩ := call_remove_inv r (a :: t) hinv
    obtain ⟨r2, hrun, hinv2, hdeq2, henq2⟩ := ih r1 hinv1
    refine ⟨r2, ?_, hinv2, ?_, ?_⟩
    · simp [List.replicate, QueueRun.calls, hcall, hrun]
    · rw [hdeq2, hdeq1]; simp
    · rw [henq2, henq1]

theorem claim_of_wellFormed_cons (s : Mem) (a : Nat) (t : List Nat) (st : stats_t)
    (tid : Int) (hwf : WellFormed s (a :: t)) :
    ∃ m st1, doctor_thread_claim s st tid = some (a, m, st1) ∧ WellFormed m t ∧
      m.wr.wait_room_curr_size + 1 = s.wr.wait_room_curr_size ∧
      m.wr.wait_room_max_capacity = s.wr.wait_room_max_capacity ∧
      m.heap = set_doc_id s.heap a tid ∧
      st1 = { st with p_treated := (st.p_treated + 1) % SIZE_MOD } := by
  obtain ⟨s1, hrm, hwf1, hheap, hsz, hc⟩ := wellFormed_remove_cons s a t hwf
  refine ⟨{ heap := set_doc_id s1.heap a tid, wr := s1.wr }, _, ?_, ?_, hsz, hc, ?_, rfl⟩
  · simp [doctor_thread_claim, hrm]
  · obtain ⟨⟨hseg, htl⟩, hrest⟩ := hwf1
    refine ⟨⟨?_, htl⟩, hrest⟩
    exact (lseg_congr_next s1.heap (set_doc_id s1.heap a tid)
      (fun x => by by_cases hx : x = a <;> simp [set_doc_id, hx]) t _).mp hseg
  · simp [hheap]

/-! ## The office: invariant of every step -/

theorem nodup_length_le (l : List Nat) (n : Nat) (hnd : l.Nodup) (hlt : ∀ i ∈ l, i < n) :
    l.length ≤ n := by
  have hsub : l.toFinset ⊆ Finset.range n := by
    intro i hi
    exact Finset.mem_range.mpr (hlt i (List.mem_toFinset.mp hi))
  have hcard := Finset.card_le_card hsub
  rwa [List.toFinset_card_of_nodup hnd, Finset.card_range] at hcard

theorem nodup_length_eq_mem (l : List Nat) (n : Nat) (hnd : l.Nodup) (hlt : ∀ i ∈ l, i < n)
    (hlen : l.length = n) : ∀ i, i < n → i ∈ l := by
  have hsub : l.toFinset ⊆ Finset.range n := by
    intro i hi
    exact Finset.mem_range.mpr (hlt i (List.mem_toFinset.mp hi))
  have heq : l.toFinset = Finset.range n :=
    Finset.eq_of_subset_of_card_le hsub
      (by rw [List.toFinset_card_of_nodup hnd, Finset.card_range, hlen])
  intro i hi
  have : i ∈ l.toFinset := by rw [heq]; exact Finset.mem_range.mpr hi
  exact List.mem_toFinset.mp this

theorem init_office_inv (num_chairs num_patients num_doctors : Nat)
    (hcap : num_chairs < SIZE_MOD) (hpat : num_patients < SIZE_MOD) :
    OfficeInv (init_office num_chairs num_patients num_doctors) [] [] where
  wf := by
    refine ⟨⟨?_, ?_⟩, ?_, ?_, ?_⟩
    · simp [lseg, init_office, init_wait_room]
    · simp [init_office, init_wait_room]
    · simp [init_office, init_wait_room]
    · simp [init_office, init_wait_room]
    · simpa [init_office, init_wait_room] using hcap
  conserve := by simp [init_office, init_stats]
  entered_eq := by simp [init_office, init_stats]
  nodup := List.nodup_nil
  mem_iff := by simp [init_office]
  lt := by simp
  fresh := by
    intro i _
    exact ⟨rfl, by simp⟩
  npat := hpat
  exited := by simp [init_office]

theorem step_arrive_inv (o o1 : Office) (xs arrived : List Nat) (i : Nat)
    (hinv : OfficeInv o xs arrived) (hstep : step o (.arrive i) = some o1) :
    ∃ xs1 arrived1, OfficeInv o1 xs1 arrived1 ∧ CountersGrow o o1 := by
  simp only [step] at hstep
  by_cases hg : i < o.num_patients ∧ o.pstate i = .NotArrived
  · rw [if_pos hg] at hstep
    obtain ⟨hi, hps⟩ := hg
    have hfr := hinv.fresh i hps
    have hnotin : i ∉ arrived := fun h => (hinv.mem_iff i).mp h hps
    have hnd1 : (i :: arrived).Nodup := List.nodup_cons.mpr ⟨hnotin, hinv.nodup⟩
    have hlt1 : ∀ j ∈ i :: arrived, j < o.num_patients := by
      intro j hj
      rcases List.mem_cons.mp hj with rfl | hj
      · exact hi
      · exact hinv.lt j hj
    have hlen := nodup_length_le _ _ hnd1 hlt1
    simp only [List.length_cons] at hlen
    have hnp := hinv.npat
    have hee := hinv.entered_eq
    have hcons := hinv.conserve
    have hent : (o.st.p_entered + 1) % SIZE_MOD = o.st.p_entered + 1 :=
      Nat.mod_eq_of_lt (by omega)
    have hmem1 : ∀ (v : PatientState), v ≠ .NotArrived →
        ∀ j, j ∈ i :: arrived ↔ set_state o.pstate i v j ≠ .NotArrived := by
      intro v hv j
      by_cases hj : j = i
      · subst hj; simp [set_state, hv]
      · simp [set_state, hj, hinv.mem_iff j]
    have hnoexit : ∀ d, o.dstate d ≠ .Exited := by
      intro d hd
      have := (hinv.exited d hd).1
      omega
    by_cases hroom : o.mem.wr.wait_room_curr_size < o.mem.wr.wait_room_max_capacity
    · obtain ⟨s1, hadd, hwf1, hc, hframe⟩ := wellFormed_add o.mem xs i hinv.wf hfr hroom
      simp only [patient_thread_arrive, hadd, hent, Option.some.injEq] at hstep
      subst hstep
      refine ⟨xs ++ [i], i :: arrived, ?_, ?_⟩
      · refine ⟨hwf1, ?_, ?_, hnd1, hmem1 _ (by simp), hlt1, ?_, hnp, ?_⟩
        · simp only [List.length_append, List.length_singleton]; omega
        · simp only [List.length_cons]; omega
        · intro j hj
          have hji : j ≠ i := by
            intro e
            subst e
            simp [set_state] at hj
          have hjo : o.pstate j = .NotArrived := by simpa [set_state, hji] using hj
          have hjf := hinv.fresh j hjo
          refine ⟨?_, ?_⟩
          · show (s1.heap j).next = none
            rw [hframe j hjf.2]; exact hjf.1
          · simp [hjf.2, hji]
        · intro d hd
          exact absurd hd (hnoexit d)
      · exact ⟨by show o.st.p_entered ≤ o.st.p_entered + 1; omega, le_refl _, le_refl _,
          rfl, rfl, hc⟩
    · have hfull : o.mem.wr.wait_room_curr_size ≥ o.mem.wr.wait_room_max_capacity := by
        omega
      have hadd := add_full o.mem i hfull
      have hnt : (o.st.p_not_treated + 1) % SIZE_MOD = o.st.p_not_treated + 1 :=
        Nat.mod_eq_of_lt (by omega)
      simp only [patient_thread_arrive, hadd, hent, hnt, Option.some.injEq] at hstep
      subst hstep
      refine ⟨xs, i :: arrived, ?_, ?_⟩
      · refine ⟨hinv.wf, ?_, ?_, hnd1, hmem1 _ (by simp), hlt1, ?_, hnp, ?_⟩
        · show o.st.p_entered + 1 = o.st.p_treated + (o.st.p_not_treated + 1) + xs.length
          omega
        · simp only [List.length_cons]; omega
        · intro j hj
          have hji : j ≠ i := by
            intro e
            subst e
            simp [set_state] at hj
          have hjo : o.pstate j = .NotArrived := by simpa [set_state, hji] using hj
          exact hinv.fresh j hjo
        · intro d hd
          exact absurd hd (hnoexit d)
      · exact ⟨by show o.st.p_entered ≤ o.st.p_entered + 1; omega, le_refl _,
          by show o.st.p_not_treated ≤ o.st.p_not_treated + 1; omega, rfl, rfl, rfl⟩
  · rw [if_neg hg] at hstep
    exact absurd hstep (by simp)

theorem step_claim_inv (o o1 : Office) (xs arrived : List Nat) (d : Nat) (woken : Option Nat)
    (hinv : OfficeInv o xs arrived) (hstep : step o (.claim d woken) = some o1) :
    ∃ xs1 arrived1, OfficeInv o1 xs1 arrived1 ∧ CountersGrow o o1 := by
  simp only [step] at hstep
  by_cases hg : d < o.num_doctors ∧ o.dstate d = .Scanning ∧
      o.mem.wr.wait_room_curr_size ≠ 0 ∧ may_wake o woken
  · rw [if_pos hg] at hstep
    obtain ⟨_, _, hne, hwake⟩ := hg
    have hiff := wellFormed_head_iff o.mem xs hinv.wf
    cases xs with
    | nil => exact absurd (hiff.2.mpr rfl) hne
    | cons a t =>
      obtain ⟨m, st1, hclaim, hwf1, _, hc, hheap, hst⟩ :=
        claim_of_wellFormed_cons o.mem a t o.st (d : Int) hinv.wf
      have hcons := hinv.conserve
      have hee := hinv.entered_eq
      have hlen := nodup_length_le _ _ hinv.nodup hinv.lt
      have hnp := hinv.npat
      simp only [List.length_cons] at hcons
      have htr : (o.st.p_treated + 1) % SIZE_MOD = o.st.p_treated + 1 :=
        Nat.mod_eq_of_lt (by omega)
      rw [htr] at hst
      simp only [hclaim, Option.some.injEq] at hstep
      subst hstep
      subst hst
      refine ⟨t, arrived, ?_, ?_⟩
      · refine ⟨hwf1, ?_, hee, hinv.nodup, ?_, hinv.lt, ?_, hnp, ?_⟩
        · show o.st.p_entered = o.st.p_treated + 1 + o.st.p_not_treated + t.length
          omega
        · intro j
          cases woken with
          | none => exact hinv.mem_iff j
          | some w =>
            have hw : o.pstate w = .AwaitingClaim := hwake.2
            by_cases hj : j = w
            · subst hj
              have : j ∈ arrived := (hinv.mem_iff j).mpr (by simp [hw])
              simp [set_state, this]
            · simp [set_state, hj, hinv.mem_iff j]
        · intro j hj
          have hjo : o.pstate j = .NotArrived := by
            cases woken with
            | none => exact hj
            | some w =>
              have hw : o.pstate w = .AwaitingClaim := hwake.2
              by_cases hjw : j = w
              · subst hjw; simp [set_state] at hj
              · simpa [set_state, hjw] using hj
          have hjf := hinv.fresh j hjo
          refine ⟨?_, fun hmem => hjf.2 (List.mem_cons_of_mem _ hmem)⟩
          show (m.heap j).next = none
          rw [hheap]
          have : (set_doc_id o.mem.heap a (d : Int) j).next = (o.mem.heap j).next := by
            by_cases hja : j = a <;> simp [set_doc_id, hja]
          rw [this]; exact hjf.1
        · intro d1 hd1
          have hd1o : o.dstate d1 = .Exited := by
            by_cases hdd : d1 = d
            · subst hdd; simp [set_state] at hd1
            · simpa [set_state, hdd] using hd1
          exact absurd (hinv.exited d1 hd1o).2 (by simp)
      · exact ⟨le_refl _, by show o.st.p_treated ≤ o.st.p_treated + 1; omega, le_refl _,
          rfl, rfl, hc⟩
  · rw [if_neg hg] at hstep
    exact absurd hstep (by simp)

theorem inv_of_pstate (o : Office) (xs arrived : List Nat) (i : Nat) (v : PatientState)
    (hinv : OfficeInv o xs arrived) (hold : o.pstate i ≠ .NotArrived) (hv : v ≠ .NotArrived) :
    OfficeInv { o with pstate := set_state o.pstate i v } xs arrived where
  wf := hinv.wf
  conserve := hinv.conserve
  entered_eq := hinv.entered_eq
  nodup := hinv.nodup
  mem_iff := by
    intro j
    by_cases hj : j = i
    · subst hj
      have : j ∈ arrived := (hinv.mem_iff j).mpr hold
      simp [set_state, this, hv]
    · simp [set_state, hj, hinv.mem_iff j]
  lt := hinv.lt
  fresh := by
    intro j hj
    have hji : j ≠ i := by
      intro e
      subst e
      simp [set_state] at hj
      exact hv hj
    exact hinv.fresh j (by simpa [set_state, hji] using hj)
  npat := hinv.npat
  exited := hinv.exited

theorem countersGrow_refl_of (o o1 : Office) (hst : o1.st = o.st)
    (hn : o1.num_patients = o.num_patients) (hd : o1.num_doctors = o.num_doctors)
    (hc : o1.mem.wr = o.mem.wr) : CountersGrow o o1 := by
  unfold CountersGrow
  rw [hst, hc]
  exact ⟨le_refl _, le_refl _, le_refl _, hn, hd, rfl⟩

theorem step_inv (o o1 : Office) (xs arrived : List Nat) (e : Event)
    (hinv : OfficeInv o xs arrived) (hstep : step o e = some o1) :
    ∃ xs1 arrived1, OfficeInv o1 xs1 arrived1 ∧ CountersGrow o o1 := by
  cases e with
  | arrive i => exact step_arrive_inv o o1 xs arrived i hinv hstep
  | claim d woken => exact step_claim_inv o o1 xs arrived d woken hinv hstep
  | proceed i =>
    simp only [step] at hstep
    by_cases hg : o.pstate i = .Signalled
    · rw [if_pos hg] at hstep
      simp only [Option.some.injEq] at hstep
      subst hstep
      exact ⟨xs, arrived, inv_of_pstate o xs arrived i _ hinv (by simp [hg]) (by simp),
        countersGrow_refl_of _ _ rfl rfl rfl rfl⟩
    · rw [if_neg hg] at hstep
      exact absurd hstep (by simp)
  | finish d =>
    simp only [step] at hstep
    cases hds : o.dstate d with
    | Scanning => simp [hds] at hstep
    | Exited => simp [hds] at hstep
    | Treating pat =>
      simp only [hds, Option.some.injEq] at hstep
      subst hstep
      have hnext : ∀ x, (set_treated o.mem.heap pat true x).next = (o.mem.heap x).next := by
        intro x
        by_cases hx : x = pat <;> simp [set_treated, hx]
      refine ⟨xs, arrived, ?_, countersGrow_refl_of _ _ rfl rfl rfl rfl⟩
      refine ⟨?_, hinv.conserve, hinv.entered_eq, hinv.nodup, hinv.mem_iff, hinv.lt, ?_,
        hinv.npat, ?_⟩
      · obtain ⟨⟨hseg, htl⟩, hrest⟩ := hinv.wf
        exact ⟨⟨(lseg_congr_next _ _ hnext xs _).mp hseg, htl⟩, hrest⟩
      · intro j hj
        have hjf := hinv.fresh j hj
        exact ⟨by show (set_treated o.mem.heap pat true j).next = none
                  rw [hnext]; exact hjf.1, hjf.2⟩
      · intro d1 hd1
        have hd1o : o.dstate d1 = .Exited := by
          by_cases hdd : d1 = d
          · subst hdd; simp [set_state] at hd1
          · simpa [set_state, hdd] using hd1
        exact hinv.exited d1 hd1o
  | leave i =>
    simp only [step] at hstep
    by_cases hg : o.pstate i = .AwaitingService ∧ (o.mem.heap i).treated = true
    · rw [if_pos hg] at hstep
      simp only [Option.some.injEq] at hstep
      subst hstep
      exact ⟨xs, arrived, inv_of_pstate o xs arrived i _ hinv (by simp [hg.1]) (by simp),
        countersGrow_refl_of _ _ rfl rfl rfl rfl⟩
    · rw [if_neg hg] at hstep
      exact absurd hstep (by simp)
  | clock_out d =>
    simp only [step] at hstep
    by_cases hg : d < o.num_doctors ∧ o.dstate d = .Scanning ∧
        o.mem.wr.wait_room_curr_size = 0 ∧ o.st.p_entered = o.num_patients
    · rw [if_pos hg] at hstep
      simp only [Option.some.injEq] at hstep
      subst hstep
      refine ⟨xs, arrived, ?_, countersGrow_refl_of _ _ rfl rfl rfl rfl⟩
      refine ⟨hinv.wf, hinv.conserve, hinv.entered_eq, hinv.nodup, hinv.mem_iff, hinv.lt,
        hinv.fresh, hinv.npat, ?_⟩
      intro d1 _
      exact ⟨hg.2.2.2, (wellFormed_head_iff o.mem xs hinv.wf).2.mp hg.2.2.1⟩
    · rw [if_neg hg] at hstep
      exact absurd hstep (by simp)

theorem run_inv (es : List Event) :
    ∀ (o o1 : Office) (xs arrived : List Nat), OfficeInv o xs arrived →
      run o es = some o1 → ∃ xs1 arrived1, OfficeInv o1 xs1 arrived1 ∧ CountersGrow o o1 := by
  induction es with
  | nil =>
    intro o o1 xs arrived hinv hrun
    simp only [run, Option.some.injEq] at hrun
    subst hrun
    exact ⟨xs, arrived, hinv, countersGrow_refl_of _ _ rfl rfl rfl rfl⟩
  | cons e es ih =>
    intro o o1 xs arrived hinv hrun
    simp only [run] at hrun
    cases hs : step o e with
    | none => simp [hs] at hrun
    | some o2 =>
      simp only [hs] at hrun
      obtain ⟨xs2, arr2, hinv2, hg2⟩ := step_inv o o2 xs arrived e hinv hs
      obtain ⟨xs1, arr1, hinv1, hg1⟩ := ih o2 o1 xs2 arr2 hinv2 hrun
      refine ⟨xs1, arr1, hinv1, ?_⟩
      unfold CountersGrow at hg1 hg2 ⊢
      refine ⟨by omega, by omega, by omega, ?_, ?_, ?_⟩
      · rw [hg1.2.2.2.1, hg2.2.2.2.1]
      · rw [hg1.2.2.2.2.1, hg2.2.2.2.2.1]
      · rw [hg1.2.2.2.2.2, hg2.2.2.2.2.2]

/-- In a state satisfying the invariant, the arrival section of a patient that has not
arrived yet runs without a fault. -/
theorem step_arrive_defined (o : Office) (xs arrived : List Nat) (i : Nat)
    (hinv : OfficeInv o xs arrived) (hi : i < o.num_patients)
    (hps : o.pstate i = .NotArrived) : ∃ o1, step o (.arrive i) = some o1 := by
  by_cases hroom : o.mem.wr.wait_room_curr_size < o.mem.wr.wait_room_max_capacity
  · obtain ⟨s1, hadd, _⟩ := wellFormed_add o.mem xs i hinv.wf (hinv.fresh i hps) hroom
    apply Option.isSome_iff_exists.mp
    simp only [step, hi, hps, and_self, if_true, patient_thread_arrive, hadd]
    rfl
  · have hadd := add_full o.mem i (by omega)
    apply Option.isSome_iff_exists.mp
    simp only [step, hi, hps, and_self, if_true, patient_thread_arrive, hadd]
    rfl

/-- In a state satisfying the invariant, the claim section of a scanning doctor that sees
a non-zero counter runs without a fault. -/
theorem step_claim_defined (o : Office) (xs arrived : List Nat) (d : Nat)
    (woken : Option Nat) (hinv : OfficeInv o xs arrived) (hd : d < o.num_doctors)
    (hds : o.dstate d = .Scanning) (hne : o.mem.wr.wait_room_curr_size ≠ 0)
    (hwake : may_wake o woken) : ∃ o1, step o (.claim d woken) = some o1 := by
  have hiff := wellFormed_head_iff o.mem xs hinv.wf
  cases xs with
  | nil => exact absurd (hiff.2.mpr rfl) hne
  | cons a t =>
    obtain ⟨m, st1, hclaim, _⟩ := claim_of_wellFormed_cons o.mem a t o.st (d : Int) hinv.wf
    have hg : d < o.num_doctors ∧ o.dstate d = .Scanning ∧
        o.mem.wr.wait_room_curr_size ≠ 0 ∧ may_wake o woken := ⟨hd, hds, hne, hwake⟩
    apply Option.isSome_iff_exists.mp
    simp only [step, if_pos hg, hclaim]
    rfl

/-- Every state reached from the initial office satisfies the invariant, and no counter
has decreased on the way. -/
theorem reachable_inv (num_chairs num_patients num_doctors : Nat) (es : List Event)
    (o : Office) (hcap : num_chairs < SIZE_MOD) (hpat : num_patients < SIZE_MOD)
    (hrun : run (init_office num_chairs num_patients num_doctors) es = some o) :
    ∃ xs arrived, OfficeInv o xs arrived ∧
      CountersGrow (init_office num_chairs num_patients num_doctors) o :=
  run_inv es _ o [] [] (init_office_inv num_chairs num_patients num_doctors hcap hpat) hrun

/-! ## `gen_random` and the start-up checks -/

/-- The value `gen_random` computes when the span `hi - lo + 1` between the ordered bounds
fits an `int`. -/
theorem gen_random_ordered (lo hi r : Int) (hlo : in_int lo) (hhi : in_int hi)
    (hle : lo ≤ hi) (hspan : in_int (hi - lo + 1)) (hr : 0 ≤ r) :
    (if in_int (hi - lo) ∧ in_int (hi - lo + 1) ∧ hi - lo + 1 ≠ 0 then
      (if in_int (Int.tmod r (hi - lo + 1) + lo) then
        some (Int.tmod r (hi - lo + 1) + lo) else none)
      else none) = some (lo + r % (hi - lo + 1)) ∧
    lo ≤ lo + r % (hi - lo + 1) ∧ lo + r % (hi - lo + 1) ≤ hi := by
  have hpos : 0 < hi - lo + 1 := by omega
  have hmod : Int.tmod r (hi - lo + 1) = r % (hi - lo + 1) :=
    Int.tmod_eq_emod hr (le_of_lt hpos)
  have h0 : 0 ≤ r % (hi - lo + 1) := Int.emod_nonneg _ (ne_of_gt hpos)
  have h1 : r % (hi - lo + 1) < hi - lo + 1 := Int.emod_lt_of_pos _ hpos
  unfold in_int at hlo hhi hspan
  have hg : in_int (hi - lo) ∧ in_int (hi - lo + 1) ∧ hi - lo + 1 ≠ 0 := by
    unfold in_int INT_MIN INT_MAX at *
    refine ⟨⟨by omega, by omega⟩, ⟨by omega, by omega⟩, by omega⟩
  have hres : in_int (r % (hi - lo + 1) + lo) := by
    unfold in_int
    constructor <;> omega
  rw [if_pos hg, hmod, if_pos hres]
  refine ⟨by rw [Int.add_comm], by omega, by omega⟩

/-- Whatever `gen_random` returns lies between its ordered bounds. -/
theorem gen_random_some_bounds (lo hi r res : Int) (hle : lo ≤ hi) (hr : 0 ≤ r)
    (hres : (if in_int (hi - lo) ∧ in_int (hi - lo + 1) ∧ hi - lo + 1 ≠ 0 then
      (if in_int (Int.tmod r (hi - lo + 1) + lo) then
        some (Int.tmod r (hi - lo + 1) + lo) else none)
      else none) = some res) : lo ≤ res ∧ res ≤ hi := by
  have hpos : 0 < hi - lo + 1 := by omega
  have hmod : Int.tmod r (hi - lo + 1) = r % (hi - lo + 1) :=
    Int.tmod_eq_emod hr (le_of_lt hpos)
  have h0 : 0 ≤ r % (hi - lo + 1) := Int.emod_nonneg _ (ne_of_gt hpos)
  have h1 : r % (hi - lo + 1) < hi - lo + 1 := Int.emod_lt_of_pos _ hpos
  split at hres
  · split at hres
    · simp only [Option.some.injEq] at hres
      rw [hmod] at hres
      constructor <;> omega
    · exact absurd hres (by simp)
  · exact absurd hres (by simp)

/-! ## The contracts of the two queue functions -/

/-- C1. On a wait room whose head and tail stand for the sequence `xs`, whose counter is
within the capacity, and for a fresh record `pat` (`next = NULL`, not in `xs`): if
`wait_room_curr_size` equals `wait_room_max_capacity` the call returns `false` and the
memory (records, head, tail, counter, capacity) is exactly unchanged; otherwise the call
returns `true`, the new sequence is `xs` with `pat` appended at the tail, the counter grows
by exactly one (no wrap), the capacity is unchanged and no record outside `xs` is
written. -/
theorem wait_room_add_patient_contract (s : Mem) (xs : List Nat) (pat : Nat)
    (hrep : Represents s xs) (hfresh : Fresh s xs pat)
    (hle : s.wr.wait_room_curr_size ≤ s.wr.wait_room_max_capacity)
    (hcap : s.wr.wait_room_max_capacity < SIZE_MOD) :
    (s.wr.wait_room_curr_size = s.wr.wait_room_max_capacity →
      wait_room_add_patient s pat = some (false, s)) ∧
    (s.wr.wait_room_curr_size ≠ s.wr.wait_room_max_capacity →
      ∃ s1, wait_room_add_patient s pat = some (true, s1) ∧
        Represents s1 (xs ++ [pat]) ∧
        s1.wr.wait_room_curr_size = s.wr.wait_room_curr_size + 1 ∧
        s1.wr.wait_room_max_capacity = s.wr.wait_room_max_capacity ∧
        (∀ a, a ∉ xs → s1.heap a = s.heap a)) :=
  ⟨fun hfull => add_full s pat (by omega),
    fun hne => add_room s xs pat hrep hfresh (by omega) hcap⟩

/-- Instance of C1: records 0 and 1 wait and record 2 arrives. In a room of two chairs the
call returns `false` and changes nothing; in a room of three chairs record 2 is appended
and the counter becomes 3. -/
theorem wait_room_add_patient_contract_witness :
    (Represents (two_waiting 2) [0, 1] ∧ Fresh (two_waiting 2) [0, 1] 2 ∧
      (two_waiting 2).wr.wait_room_curr_size ≤ (two_waiting 2).wr.wait_room_max_capacity ∧
      (two_waiting 2).wr.wait_room_max_capacity < SIZE_MOD ∧
      (two_waiting 2).wr.wait_room_curr_size = (two_waiting 2).wr.wait_room_max_capacity ∧
      wait_room_add_patient (two_waiting 2) 2 = some (false, two_waiting 2)) ∧
    (Represents (two_waiting 3) [0, 1] ∧ Fresh (two_waiting 3) [0, 1] 2 ∧
      (two_waiting 3).wr.wait_room_curr_size ≤ (two_waiting 3).wr.wait_room_max_capacity ∧
      (two_waiting 3).wr.wait_room_max_capacity < SIZE_MOD ∧
      (two_waiting 3).wr.wait_room_curr_size ≠ (two_waiting 3).wr.wait_room_max_capacity ∧
      ∃ s1, wait_room_add_patient (two_waiting 3) 2 = some (true, s1) ∧
        Represents s1 ([0, 1] ++ [2]) ∧
        s1.wr.wait_room_curr_size = (two_waiting 3).wr.wait_room_curr_size + 1 ∧
        s1.wr.wait_room_max_capacity = (two_waiting 3).wr.wait_room_max_capacity ∧
        (∀ a, a ∉ [0, 1] → s1.heap a = (two_waiting 3).heap a)) :=
  ⟨⟨by decide, by decide, by decide, by decide, by decide,
      (wait_room_add_patient_contract (two_waiting 2) [0, 1] 2 (by decide) (by decide)
        (by decide) (by decide)).1 (by decide)⟩,
    ⟨by decide, by decide, by decide, by decide, by decide,
      (wait_room_add_patient_contract (two_waiting 3) [0, 1] 2 (by decide) (by decide)
        (by decide) (by decide)).2 (by decide)⟩⟩

/-- C2. On a well-formed wait room holding the sequence `xs`: the room is empty exactly
when the head is `NULL`, exactly when the counter is 0; if it is empty the call returns
`NULL` and changes nothing; if `xs = a :: t` the call returns the head record `a`, the room
is well formed with the sequence `t`, the records are untouched, the counter drops by
exactly one, the capacity is unchanged, and when `t` is empty head and tail are `NULL`. -/
theorem wait_room_remove_patient_contract (s : Mem) (xs : List Nat)
    (hwf : WellFormed s xs) :
    (xs = [] ↔ s.wr.wait_room_head = none) ∧
    (xs = [] ↔ s.wr.wait_room_curr_size = 0) ∧
    (xs = [] → wait_room_remove_patient s = (none, s)) ∧
    (∀ a t, xs = a :: t →
      ∃ s1, wait_room_remove_patient s = (some a, s1) ∧
        WellFormed s1 t ∧
        s1.heap = s.heap ∧
        s1.wr.wait_room_curr_size + 1 = s.wr.wait_room_curr_size ∧
        s1.wr.wait_room_max_capacity = s.wr.wait_room_max_capacity ∧
        (t = [] → s1.wr.wait_room_head = none ∧ s1.wr.wait_room_tail = none)) := by
  have hiff := wellFormed_head_iff s xs hwf
  refine ⟨hiff.1.symm, hiff.2.symm, ?_, ?_⟩
  · intro hnil
    subst hnil
    exact remove_nil s hwf.1
  · intro a t hcons
    subst hcons
    obtain ⟨s1, hrm, hwf1, hheap, hsz, hc⟩ := wellFormed_remove_cons s a t hwf
    refine ⟨s1, hrm, hwf1, hheap, hsz, hc, ?_⟩
    intro ht
    subst ht
    exact ⟨hwf1.1.1, by simpa using hwf1.1.2⟩

/-- Instance of C2: records 0 and 1 wait in a room of three chairs; the call returns
record 0 and leaves record 1. -/
theorem wait_room_remove_patient_contract_witness :
    WellFormed (two_waiting 3) [0, 1] ∧
    ∃ s1, wait_room_remove_patient (two_waiting 3) = (some 0, s1) ∧
      WellFormed s1 [1] ∧
      s1.heap = (two_waiting 3).heap ∧
      s1.wr.wait_room_curr_size + 1 = (two_waiting 3).wr.wait_room_curr_size ∧
      s1.wr.wait_room_max_capacity = (two_waiting 3).wr.wait_room_max_capacity ∧
      (([1] : List Nat) = [] → s1.wr.wait_room_head = none ∧ s1.wr.wait_room_tail = none) :=
  ⟨by decide,
    (wait_room_remove_patient_contract (two_waiting 3) [0, 1] (by decide)).2.2.2 0 [1] rfl⟩

/-! ## Invariant, FIFO order and the doctor's dereference -/

/-- C3. From the empty wait room of `main` with capacity `num_chairs`, every finite list of
`wait_room_add_patient` calls on distinct fresh records and `wait_room_remove_patient`
calls runs without a fault and ends in a state where the records reachable from the head
form a sequence `xs` without repetition, the counter equals the length of `xs`, and
`0 ≤ wait_room_curr_size ≤ wait_room_max_capacity = num_chairs`. -/
theorem queue_invariant (h : Heap) (num_chairs : Nat) (cs : List QueueCall)
    (hcap : num_chairs < SIZE_MOD) (hfresh : ∀ p ∈ added cs, (h p).next = none)
    (hdistinct : (added cs).Nodup) :
    ∃ r xs, (QueueRun.start h num_chairs).calls cs = some r ∧
      lseg r.mem.heap r.mem.wr.wait_room_head xs ∧
      xs.Nodup ∧
      r.mem.wr.wait_room_curr_size = xs.length ∧
      0 ≤ r.mem.wr.wait_room_curr_size ∧
      r.mem.wr.wait_room_curr_size ≤ r.mem.wr.wait_room_max_capacity ∧
      r.mem.wr.wait_room_max_capacity = num_chairs := by
  obtain ⟨r, xs, hrun, hinv, hc⟩ := start_calls_inv h num_chairs cs hcap hfresh hdistinct
  obtain ⟨⟨⟨hseg, _⟩, hlen, hle, _⟩, _⟩ := hinv
  exact ⟨r, xs, hrun, hseg, lseg_nodup _ _ _ hseg, hlen, Nat.zero_le _, hle, hc⟩

/-- Instance of C3: two chairs; records 0, 1, 2 arrive (the third is turned away), one is
removed, record 3 arrives. -/
theorem queue_invariant_witness :
    (2 < SIZE_MOD) ∧
    (∀ p ∈ added [.add 0, .add 1, .add 2, .remove, .add 3], (fresh_heap p).next = none) ∧
    (added [.add 0, .add 1, .add 2, .remove, .add 3]).Nodup ∧
    ∃ r xs, (QueueRun.start fresh_heap 2).calls
        [.add 0, .add 1, .add 2, .remove, .add 3] = some r ∧
      lseg r.mem.heap r.mem.wr.wait_room_head xs ∧
      xs.Nodup ∧
      r.mem.wr.wait_room_curr_size = xs.length ∧
      0 ≤ r.mem.wr.wait_room_curr_size ∧
      r.mem.wr.wait_room_curr_size ≤ r.mem.wr.wait_room_max_capacity ∧
      r.mem.wr.wait_room_max_capacity = 2 :=
  ⟨by decide, fun _ _ => rfl, by decide,
    queue_invariant fresh_heap 2 [.add 0, .add 1, .add 2, .remove, .add 3] (by decide)
      (fun _ _ => rfl) (by decide)⟩

/-- C4. From the empty wait room, for every list of calls on distinct fresh records the
run goes through and the records handed out by the non-`NULL` dequeues are, in order, the
first records enqueued (the `k`-th dequeued record is the `k`-th enqueued one), the rest
being the sequence still linked from the head. In particular, enqueueing the distinct fresh
records `rs` (at most `num_chairs` of them) and then dequeuing `rs.length` times enqueues
all of them, hands out exactly `rs` in that order and leaves the queue empty. -/
theorem queue_fifo (h : Heap) (num_chairs : Nat) (cs : List QueueCall) (rs : List Nat)
    (hcap : num_chairs < SIZE_MOD) (hfresh : ∀ p ∈ added cs, (h p).next = none)
    (hdistinct : (added cs).Nodup) (hrs_fresh : ∀ p ∈ rs, (h p).next = none)
    (hrs_distinct : rs.Nodup) (hrs_len : rs.length ≤ num_chairs) :
    (∃ r xs, (QueueRun.start h num_chairs).calls cs = some r ∧
      r.enqueued = r.dequeued ++ xs ∧
      lseg r.mem.heap r.mem.wr.wait_room_head xs ∧
      (∀ k, k < r.dequeued.length → r.dequeued[k]? = r.enqueued[k]?)) ∧
    (∃ r, (QueueRun.start h num_chairs).calls
        (rs.map QueueCall.add ++ List.replicate rs.length QueueCall.remove) = some r ∧
      r.enqueued = rs ∧ r.dequeued = rs ∧
      r.mem.wr.wait_room_head = none ∧ r.mem.wr.wait_room_tail = none ∧
      r.mem.wr.wait_room_curr_size = 0) := by
  constructor
  · obtain ⟨r, xs, hrun, hinv, _⟩ := start_calls_inv h num_chairs cs hcap hfresh hdistinct
    refine ⟨r, xs, hrun, hinv.2, hinv.1.1.1, ?_⟩
    intro k hk
    rw [hinv.2, List.getElem?_append_left hk]
  · obtain ⟨r1, hrun1, hinv1, henq1, hdeq1⟩ := adds_all rs (QueueRun.start h num_chairs) []
      (start_inv h num_chairs hcap)
      (fun p hp => ⟨by simpa [QueueRun.start] using hrs_fresh p hp, by simp⟩) hrs_distinct
      (by simpa [QueueRun.start, init_wait_room] using hrs_len)
    simp only [List.nil_append] at hinv1
    obtain ⟨r2, hrun2, hinv2, hdeq2, henq2⟩ := removes_all rs r1 hinv1
    refine ⟨r2, ?_, ?_, ?_, ?_, ?_, ?_⟩
    · rw [calls_append _ _ _ _ hrun1]; exact hrun2
    · rw [henq2, henq1]; simp [QueueRun.start]
    · rw [hdeq2, hdeq1]; simp [QueueRun.start]
    · exact hinv2.1.1.1
    · simpa using hinv2.1.1.2
    · simpa using hinv2.1.2.1

/-- Instance of C4: two chairs; an interleaved run with one rejection, and the run that
enqueues records 5 and 6 and dequeues twice. -/
theorem queue_fifo_witness :
    (2 < SIZE_MOD) ∧
    (∀ p ∈ added [.add 0, .add 1, .add 2, .remove, .add 3], (fresh_heap p).next = none) ∧
    (added [.add 0, .add 1, .add 2, .remove, .add 3]).Nodup ∧
    (∀ p ∈ [5, 6], (fresh_heap p).next = none) ∧ [5, 6].Nodup ∧ [5, 6].length ≤ 2 ∧
    (∃ r xs, (QueueRun.start fresh_heap 2).calls
        [.add 0, .add 1, .add 2, .remove, .add 3] = some r ∧
      r.enqueued = r.dequeued ++ xs ∧
      lseg r.mem.heap r.mem.wr.wait_room_head xs ∧
      (∀ k, k < r.dequeued.length → r.dequeued[k]? = r.enqueued[k]?)) ∧
    (∃ r, (QueueRun.start fresh_heap 2).calls
        ([5, 6].map QueueCall.add ++ List.replicate [5, 6].length QueueCall.remove) = some r ∧
      r.enqueued = [5, 6] ∧ r.dequeued = [5, 6] ∧
      r.mem.wr.wait_room_head = none ∧ r.mem.wr.wait_room_tail = none ∧
      r.mem.wr.wait_room_curr_size = 0) :=
  ⟨by decide, fun _ _ => rfl, by decide, fun _ _ => rfl, by decide, by decide,
    queue_fifo fresh_heap 2 [.add 0, .add 1, .add 2, .remove, .add 3] [5, 6] (by decide)
      (fun _ _ => rfl) (by decide) (fun _ _ => rfl) (by decide) (by decide)⟩

/-- C10. In every wait-room state reached from the empty one by calls of
`wait_room_add_patient` on distinct fresh records and of `wait_room_remove_patient`:
the head is `NULL` exactly when the counter is 0; and when the counter is not 0,
`wait_room_remove_patient` returns a record (not `NULL`), the doctor's claim section
(`curr_pat->doc_id = tid`) runs without a fault on that record, and the counter before the
decrement is one more than after it (no wrap below zero). The same holds in the office:
in every state reached by the steps of the threads the head is `NULL` exactly when the
counter is 0, and the claim section of a scanning doctor that sees a non-zero counter runs
without a fault. -/
theorem doctor_dereference_safe (h : Heap) (num_chairs : Nat) (cs : List QueueCall)
    (hcap : num_chairs < SIZE_MOD) (hfresh : ∀ p ∈ added cs, (h p).next = none)
    (hdistinct : (added cs).Nodup) :
    (∃ r, (QueueRun.start h num_chairs).calls cs = some r ∧
      (r.mem.wr.wait_room_head = none ↔ r.mem.wr.wait_room_curr_size = 0) ∧
      (r.mem.wr.wait_room_curr_size ≠ 0 →
        ∃ pat m, wait_room_remove_patient r.mem = (some pat, m) ∧
          r.mem.wr.wait_room_head = some pat ∧
          m.wr.wait_room_curr_size + 1 = r.mem.wr.wait_room_curr_size ∧
          ∀ (st : stats_t) (tid : Int),
            ∃ m1 st1, doctor_thread_claim r.mem st tid = some (pat, m1, st1))) ∧
    (∀ (num_patients num_doctors : Nat) (es : List Event) (o : Office),
      num_patients < SIZE_MOD →
      run (init_office num_chairs num_patients num_doctors) es = some o →
      (o.mem.wr.wait_room_head = none ↔ o.mem.wr.wait_room_curr_size = 0) ∧
      ∀ d woken, d < o.num_doctors → o.dstate d = .Scanning →
        o.mem.wr.wait_room_curr_size ≠ 0 → may_wake o woken →
        ∃ o1, step o (.claim d woken) = some o1) := by
  constructor
  · obtain ⟨r, xs, hrun, hinv, _⟩ := start_calls_inv h num_chairs cs hcap hfresh hdistinct
    have hiff := wellFormed_head_iff r.mem xs hinv.1
    refine ⟨r, hrun, hiff.1.trans hiff.2.symm, ?_⟩
    intro hne
    cases xs with
    | nil => exact absurd (hiff.2.mpr rfl) hne
    | cons a t =>
      obtain ⟨s1, hrm, _, _, hsz, _⟩ := wellFormed_remove_cons r.mem a t hinv.1
      refine ⟨a, s1, hrm, hinv.1.1.1.1, hsz, ?_⟩
      intro st tid
      obtain ⟨m1, st1, hclaim, _⟩ := claim_of_wellFormed_cons r.mem a t st tid hinv.1
      exact ⟨m1, st1, hclaim⟩
  · intro num_patients num_doctors es o hpat hrun
    obtain ⟨xs, arrived, hinv, _⟩ :=
      reachable_inv num_chairs num_patients num_doctors es o hcap hpat hrun
    have hiff := wellFormed_head_iff o.mem xs hinv.wf
    refine ⟨hiff.1.trans hiff.2.symm, ?_⟩
    intro d woken hd hds hne hwake
    exact step_claim_defined o xs arrived d woken hinv hd hds hne hwake

/-- Instance of C10: two chairs; records 0, 1, 2 arrive (the third is turned away), one is
removed, record 3 arrives. -/
theorem doctor_dereference_safe_witness :
    (2 < SIZE_MOD) ∧
    (∀ p ∈ added [.add 0, .add 1, .add 2, .remove, .add 3], (fresh_heap p).next = none) ∧
    (added [.add 0, .add 1, .add 2, .remove, .add 3]).Nodup ∧
    ∃ r, (QueueRun.start fresh_heap 2).calls
        [.add 0, .add 1, .add 2, .remove, .add 3] = some r ∧
      (r.mem.wr.wait_room_head = none ↔ r.mem.wr.wait_room_curr_size = 0) ∧
      (r.mem.wr.wait_room_curr_size ≠ 0 →
        ∃ pat m, wait_room_remove_patient r.mem = (some pat, m) ∧
          r.mem.wr.wait_room_head = some pat ∧
          m.wr.wait_room_curr_size + 1 = r.mem.wr.wait_room_curr_size ∧
          ∀ (st : stats_t) (tid : Int),
            ∃ m1 st1, doctor_thread_claim r.mem st tid = some (pat, m1, st1)) :=
  ⟨by decide, fun _ _ => rfl, by decide,
    (doctor_dereference_safe fresh_heap 2 [.add 0, .add 1, .add 2, .remove, .add 3]
      (by decide) (fun _ _ => rfl) (by decide)).1⟩

/-! ## The shared counters -/

/-- C5. In every state reached from the initial office (counters 0, empty queue) by the
steps of the threads: if the queue is empty (counter 0, or head `NULL`) then
`p_entered = p_treated + p_not_treated`;
and once all patient and doctor threads have exited (at least one doctor), the queue is
empty, `p_entered` is the configured number of patients and so is
`p_treated + p_not_treated`. With two chairs, five patients and one doctor this gives
`p_entered = 5` and `p_treated + p_not_treated = 5` at the end. -/
theorem counter_conservation (num_chairs num_patients num_doctors : Nat) (es : List Event)
    (o : Office) (hcap : num_chairs < SIZE_MOD) (hpat : num_patients < SIZE_MOD)
    (hrun : run (init_office num_chairs num_patients num_doctors) es = some o) :
    (o.mem.wr.wait_room_curr_size = 0 →
      o.st.p_entered = o.st.p_treated + o.st.p_not_treated) ∧
    (o.mem.wr.wait_room_head = none →
      o.st.p_entered = o.st.p_treated + o.st.p_not_treated) ∧
    (0 < num_doctors → AllExited o →
      o.mem.wr.wait_room_curr_size = 0 ∧ o.st.p_entered = num_patients ∧
      o.st.p_treated + o.st.p_not_treated = num_patients) := by
  obtain ⟨xs, arrived, hinv, hgrow⟩ := reachable_inv num_chairs num_patients num_doctors es o
    hcap hpat hrun
  have hiff := wellFormed_head_iff o.mem xs hinv.wf
  have hcons := hinv.conserve
  have hnd : o.num_doctors = num_doctors := hgrow.2.2.2.2.1
  have hnp : o.num_patients = num_patients := hgrow.2.2.2.1
  refine ⟨?_, ?_, ?_⟩
  · intro hz
    have hnil := hiff.2.mp hz
    subst hnil
    simpa using hcons
  · intro hz
    have hnil := hiff.1.mp hz
    subst hnil
    simpa using hcons
  · intro hdoc hall
    have hex : o.dstate 0 = .Exited := hall.2 0 (by omega)
    obtain ⟨hent, hnil⟩ := hinv.exited 0 hex
    subst hnil
    have hz : o.mem.wr.wait_room_curr_size = 0 := hiff.2.mpr rfl
    simp only [List.length_nil, Nat.add_zero] at hcons
    exact ⟨hz, by omega, by omega⟩

/-- Instance of C5, Scenario A: two chairs, five patients, one doctor; at the end of the
schedule `scenario_A` all threads have exited, `p_entered = 5` and
`p_treated + p_not_treated = 5`. -/
theorem counter_conservation_witness :
    (2 < SIZE_MOD) ∧ (5 < SIZE_MOD) ∧
    run (init_office 2 5 1) scenario_A = some scenario_A_final ∧
    AllExited scenario_A_final ∧
    scenario_A_final.mem.wr.wait_room_curr_size = 0 ∧
    scenario_A_final.st.p_entered = 5 ∧
    scenario_A_final.st.p_treated + scenario_A_final.st.p_not_treated = 5 :=
  ⟨by decide, by decide, rfl, by decide,
    (counter_conservation 2 5 1 scenario_A scenario_A_final (by decide) (by decide) rfl).2.2
      (by decide) (by decide)⟩

/-- C6. In every state reached from the initial office (`init_stats`, empty queue):
`p_treated ≤ p_entered`, `p_not_treated ≤ p_entered`, `p_entered` is at most the number
of patients (so below `2 ^ 64`), no counter is below its initial value, and along every
further step of any thread none of the three counters decreases (the wrapping `++` never
wraps). -/
theorem counter_bounds (num_chairs num_patients num_doctors : Nat) (es : List Event)
    (o : Office) (hcap : num_chairs < SIZE_MOD) (hpat : num_patients < SIZE_MOD)
    (hrun : run (init_office num_chairs num_patients num_doctors) es = some o) :
    o.st.p_treated ≤ o.st.p_entered ∧ o.st.p_not_treated ≤ o.st.p_entered ∧
    o.st.p_entered ≤ num_patients ∧
    (∀ e o1, step o e = some o1 →
      o.st.p_entered ≤ o1.st.p_entered ∧ o.st.p_treated ≤ o1.st.p_treated ∧
      o.st.p_not_treated ≤ o1.st.p_not_treated) := by
  obtain ⟨xs, arrived, hinv, hgrow⟩ := reachable_inv num_chairs num_patients num_doctors es o
    hcap hpat hrun
  have hcons := hinv.conserve
  have hlen := nodup_length_le _ _ hinv.nodup hinv.lt
  have hee := hinv.entered_eq
  have hnp : o.num_patients = num_patients := hgrow.2.2.2.1
  refine ⟨by omega, by omega, by omega, ?_⟩
  intro e o1 hstep
  obtain ⟨_, _, _, hg⟩ := step_inv o o1 xs arrived e hinv hstep
  exact ⟨hg.1, hg.2.1, hg.2.2.1⟩

/-- Instance of C6: one chair, three patients, three doctors, half way through a schedule
(patient 0 in treatment, patient 1 waiting, patient 2 turned away): the counters read
3, 1, 1 and no further step lowers one of them. -/
theorem counter_bounds_witness :
    (1 < SIZE_MOD) ∧ (3 < SIZE_MOD) ∧
    run (init_office 1 3 3) scenario_B_part = some scenario_B_state ∧
    scenario_B_state.st = { p_entered := 3, p_treated := 1, p_not_treated := 1 } ∧
    scenario_B_state.st.p_treated ≤ scenario_B_state.st.p_entered ∧
    scenario_B_state.st.p_not_treated ≤ scenario_B_state.st.p_entered ∧
    scenario_B_state.st.p_entered ≤ 3 ∧
    (∀ e o1, step scenario_B_state e = some o1 →
      scenario_B_state.st.p_entered ≤ o1.st.p_entered ∧
      scenario_B_state.st.p_treated ≤ o1.st.p_treated ∧
      scenario_B_state.st.p_not_treated ≤ o1.st.p_not_treated) :=
  ⟨by decide, by decide, rfl, by decide,
    counter_bounds 1 3 3 scenario_B_part scenario_B_state (by decide) (by decide) rfl⟩

/-! ## The wait for a claim -/

/-- C9 fails on the code. Two chairs, three patients, one doctor, schedule `wrong_wake`:
the run is a run of the office, and at its end patient 2 has left its wait on `treatment`
and gone on to await service although its record is still at the head of the queue with
`doc_id = -1`, while patient 1, whose record doctor 0 dequeued and stamped, is still
blocked. -/
theorem patient_proceeds_unclaimed :
    run (init_office 2 3 1) wrong_wake = some wrong_wake_final ∧
    wrong_wake_final.pstate 2 = .AwaitingService ∧
    (wrong_wake_final.mem.heap 2).doc_id = -1 ∧
    wrong_wake_final.mem.wr.wait_room_head = some 2 ∧
    wrong_wake_final.dstate 0 = .Treating 1 ∧
    (wrong_wake_final.mem.heap 1).doc_id = 0 ∧
    wrong_wake_final.pstate 1 = .AwaitingClaim :=
  ⟨rfl, by decide, by decide, by decide, by decide, by decide, by decide⟩

/-! ## `gen_random` -/

/-- C7. For `int` bounds `a`, `b` and a non-negative value `r` of `rand()`:
if `a > b` and `a - b + 1` fits an `int`, `gen_random(a, b)` returns
`b + r mod (a - b + 1)`, which lies in `[b, a]` and is what `gen_random(b, a)` returns for
the same `r`. For any `a`, `b` whose span `max - min + 1` fits an `int` the call returns a
value, and every value the call returns lies between `min a b` and `max a b`. -/
theorem gen_random_swaps_bounds (a b r : Int) (ha : in_int a) (hb : in_int b)
    (hr : 0 ≤ r) :
    (b < a → in_int (a - b + 1) →
      gen_random a b r = some (b + r % (a - b + 1)) ∧
      b ≤ b + r % (a - b + 1) ∧ b + r % (a - b + 1) ≤ a ∧
      gen_random a b r = gen_random b a r) ∧
    (in_int (max a b - min a b + 1) →
      ∃ res, gen_random a b r = some res ∧ min a b ≤ res ∧ res ≤ max a b) ∧
    (∀ res, gen_random a b r = some res → min a b ≤ res ∧ res ≤ max a b) := by
  refine ⟨?_, ?_, ?_⟩
  · intro hlt hspan
    have hge : a ≥ b := le_of_lt hlt
    have hnge : ¬ b ≥ a := by omega
    obtain ⟨h1, h2, h3⟩ := gen_random_ordered b a r hb ha hge hspan hr
    refine ⟨?_, h2, h3, ?_⟩
    · simp only [gen_random, hge, if_true]
      exact h1
    · simp only [gen_random, hge, hnge, if_true, if_false]
  · intro hspan
    by_cases hge : a ≥ b
    · rw [max_eq_left hge, min_eq_right hge] at hspan ⊢
      obtain ⟨h1, h2, h3⟩ := gen_random_ordered b a r hb ha hge hspan hr
      refine ⟨_, ?_, h2, h3⟩
      simp only [gen_random, hge, if_true]
      exact h1
    · have hle : a ≤ b := by omega
      rw [max_eq_right hle, min_eq_left hle] at hspan ⊢
      obtain ⟨h1, h2, h3⟩ := gen_random_ordered a b r ha hb hle hspan hr
      refine ⟨_, ?_, h2, h3⟩
      simp only [gen_random, hge, if_false]
      exact h1
  · intro res hres
    by_cases hge : a ≥ b
    · rw [max_eq_left hge, min_eq_right hge]
      simp only [gen_random, hge, if_true] at hres
      exact gen_random_some_bounds b a r res hge hr hres
    · have hle : a ≤ b := by omega
      rw [max_eq_right hle, min_eq_left hle]
      simp only [gen_random, hge, if_false] at hres
      exact gen_random_some_bounds a b r res hle hr hres

/-- Instance of C7: `gen_random(8, 4)` with `rand() = 13` returns `4 + 13 mod 5 = 7`, as
`gen_random(4, 8)` does. -/
theorem gen_random_swaps_bounds_witness :
    in_int 8 ∧ in_int 4 ∧ (0 : Int) ≤ 13 ∧ (4 : Int) < 8 ∧ in_int (8 - 4 + 1) ∧
    gen_random 8 4 13 = some 7 ∧
    gen_random 8 4 13 = some (4 + 13 % (8 - 4 + 1)) ∧
    (4 : Int) ≤ 4 + 13 % (8 - 4 + 1) ∧ (4 : Int) + 13 % (8 - 4 + 1) ≤ 8 ∧
    gen_random 8 4 13 = gen_random 4 8 13 :=
  ⟨by decide, by decide, by decide, by decide, by decide, by decide,
    (gen_random_swaps_bounds 8 4 13 (by decide) (by decide) (by decide)).1 (by decide)
      (by decide)⟩

/-! ## Start-up checks -/

/-- C8, as amended. The start-up part of `main` starts the threads exactly when
`argc = 4`, the capacity and the number of doctors are positive and the number of patients
is not negative; in every other case the process exits before anything is set up. The
three value checks exit with 1 (doctors), 2 (capacity), 3 (patients), in this order of
precedence; these codes differ from one another and from the status 0 of a successful run.
A wrong argument count exits with 0, the status of a successful run. -/
theorem main_startup_codes (argc _num_chairs _num_patients _num_doctors : Int) :
    ((∃ c p d, main_startup argc _num_chairs _num_patients _num_doctors = .start c p d) ↔
      argc = 4 ∧ 0 < _num_chairs ∧ 0 < _num_doctors ∧ 0 ≤ _num_patients) ∧
    (argc = 4 → 0 < _num_chairs → 0 < _num_doctors → 0 ≤ _num_patients →
      main_startup argc _num_chairs _num_patients _num_doctors =
        .start _num_chairs.toNat _num_patients.toNat _num_doctors.toNat) ∧
    (argc ≠ 4 → main_startup argc _num_chairs _num_patients _num_doctors = .exit 0) ∧
    (argc = 4 → _num_doctors ≤ 0 →
      main_startup argc _num_chairs _num_patients _num_doctors = .exit 1) ∧
    (argc = 4 → 0 < _num_doctors → _num_chairs ≤ 0 →
      main_startup argc _num_chairs _num_patients _num_doctors = .exit 2) ∧
    (argc = 4 → 0 < _num_doctors → 0 < _num_chairs → _num_patients < 0 →
      main_startup argc _num_chairs _num_patients _num_doctors = .exit 3) ∧
    ((1 : Int) ≠ 2 ∧ (1 : Int) ≠ 3 ∧ (2 : Int) ≠ 3 ∧
      (1 : Int) ≠ main_return ∧ (2 : Int) ≠ main_return ∧ (3 : Int) ≠ main_return) ∧
    (0 : Int) = main_return := by
  have hstart : argc = 4 → 0 < _num_chairs → 0 < _num_doctors → 0 ≤ _num_patients →
      main_startup argc _num_chairs _num_patients _num_doctors =
        .start _num_chairs.toNat _num_patients.toNat _num_doctors.toNat := by
    intro h1 h2 h3 h4
    simp [main_startup, h1, not_le.mpr h3, not_le.mpr h2, not_lt.mpr h4]
  refine ⟨⟨?_, ?_⟩, hstart, ?_, ?_, ?_, ?_, by decide, rfl⟩
  · rintro ⟨c, p, d, h⟩
    unfold main_startup at h
    split at h
    · exact absurd h (by simp)
    · split at h
      · exact absurd h (by simp)
      · split at h
        · exact absurd h (by simp)
        · split at h
          · exact absurd h (by simp)
          · refine ⟨?_, ?_, ?_, ?_⟩ <;> omega
  · rintro ⟨h1, h2, h3, h4⟩
    exact ⟨_, _, _, hstart h1 h2 h3 h4⟩
  · intro h
    simp [main_startup, h]
  · intro h1 h2
    simp [main_startup, h1, h2]
  · intro h1 h2 h3
    simp [main_startup, h1, not_le.mpr h2, h3]
  · intro h1 h2 h3 h4
    simp [main_startup, h1, not_le.mpr h2, not_le.mpr h3, h4]

/-- Instance of the amended C8: `DoctorsOffice 0 5 1` exits with 2, `DoctorsOffice 2 5 0`
with 1, `DoctorsOffice 2 -1 1` with 3, and `DoctorsOffice 2 5 1` starts the threads. -/
theorem main_startup_codes_witness :
    main_startup 4 0 5 1 = .exit 2 ∧ main_startup 4 2 5 0 = .exit 1 ∧
    main_startup 4 2 (-1) 1 = .exit 3 ∧ main_startup 4 2 5 1 = .start 2 5 1 :=
  ⟨(main_startup_codes 4 0 5 1).2.2.2.2.1 rfl (by decide) (by decide),
    (main_startup_codes 4 2 5 0).2.2.2.1 rfl (by decide),
    (main_startup_codes 4 2 (-1) 1).2.2.2.2.2.1 rfl (by decide) (by decide) (by decide),
    (main_startup_codes 4 2 5 1).2.1 rfl (by decide) (by decide) (by decide)⟩

/-- C8 as stated fails: started with two parameters instead of three (`argc = 3`), `main`
exits with code 0, which is also the status of a successful run. -/
theorem main_startup_usage_exit_zero :
    main_startup 3 2 5 0 = .exit 0 ∧ main_return = 0 ∧
    ¬ ∃ code, main_startup 3 2 5 0 = .exit code ∧ code ≠ main_return := by
  refine ⟨by decide, rfl, ?_⟩
  rintro ⟨code, h1, h2⟩
  have h0 : main_startup 3 2 5 0 = .exit 0 := by decide
  rw [h0] at h1
  injection h1 with h1
  exact h2 (by rw [← h1]; rfl)

end DoctorsOffice
